import Mathlib

/-!
Verification of the 8-puzzle A* solver (`AI_DataScience_Task1`).

This file shallowly embeds the repository's core modules:

* `sliding_direction.py` / `SlidingDirection.py` — the move directions
  (identical in both generations of the code);
* `board_state.py` — the canonical `State` class (empty-first goal);
* `State.py` — the legacy `State` class (empty-last goal), embedded as the
  `L`-suffixed operations on the same board representation;
* `tree_node.py` — the A* search loop `solve_by_heuristic`;
* `TreeNode.py` — the legacy wrapper `solve_hamming` that checks
  `is_solvable` before searching.

Boards are `List (List (Option Nat))` with `none` for the empty cell, as in
the Python code where cells are ints or `None`.  Machine integers do not
overflow in the source (board sizes are tiny), so `Nat`/`Int` are used
directly.  Python's runtime errors on malformed inputs (e.g. unpacking
`find_empty()` when no empty cell exists) are modelled as `Option` failures
and noted where they occur.
-/

/-- The cell of a board: a tile number or the empty marker (`None` in Python). -/
abbrev Cell := Option Nat

/-- A board: a list of rows, as the Python 2D list `board`. -/
abbrev BoardRep := List (List Cell)

/-- `SlidingDirection` from `sliding_direction.py` (and identically
`SlidingDirection.py`): the four legal slide directions. -/
inductive SlidingDirection where
  | DOWN
  | LEFT
  | UP
  | RIGHT
deriving DecidableEq, Repr

/-- The `(dx, dy)` coordinate offset of each direction (`delta` property). -/
def SlidingDirection.delta : SlidingDirection → Int × Int
  | .DOWN => (0, -1)
  | .LEFT => (1, 0)
  | .UP => (0, 1)
  | .RIGHT => (-1, 0)

/-- Enum iteration order of `for direction in SlidingDirection` in Python:
definition order `DOWN, LEFT, UP, RIGHT`. -/
def directionOrder : List SlidingDirection := [.DOWN, .LEFT, .UP, .RIGHT]

/-- The `State` class of `board_state.py` (same attributes in the legacy
`State.py`): a board dimension and a 2D list of cells. -/
structure State where
  size : Nat
  board : BoardRep
deriving DecidableEq, Repr

namespace State

/-- `get_flat`: the board flattened row by row. -/
def get_flat (s : State) : List Cell :=
  s.board.flatten

/-- Cell lookup `board[y][x]`.  Out-of-range indices yield `none`; the code
only indexes within the checked bounds on well-formed boards. -/
def cell (s : State) (x y : Nat) : Cell :=
  (s.board.getD y []).getD x none

/-- `find_empty`: scan rows `y = 0, 1, ...` then columns `x = 0, 1, ...` and
return the first coordinates `(x, y)` holding `None`.  Python implicitly
returns `None` when no empty cell exists; that is the `none` case here. -/
def find_empty (s : State) : Option (Nat × Nat) :=
  (List.range s.size).findSome? fun y =>
    (List.range s.size).findSome? fun x =>
      if s.cell x y = none then some (x, y) else none

/-- Write value `v` at `board[y][x]` (used to model the swap in `make_move`). -/
def setCell (b : BoardRep) (x y : Nat) (v : Cell) : BoardRep :=
  b.set y ((b.getD y []).set x v)

/-- `make_move`: swap the empty cell with the neighbour at offset `delta`,
returning a new state, or `none` when the neighbour is outside the grid.
Python's simultaneous assignment reads both right-hand sides from the
unmodified copy, which the two sequential `setCell`s reproduce.  Python
raises on a board with no empty cell (`x, y = self.find_empty()` with
`None`); that failure is modelled by the first `none` branch. -/
def make_move (s : State) (d : SlidingDirection) : Option State :=
  match s.find_empty with
  | none => none
  | some (x, y) =>
    let dx := d.delta.1
    let dy := d.delta.2
    let nx : Int := (x : Int) + dx
    let ny : Int := (y : Int) + dy
    if 0 ≤ nx ∧ nx < (s.size : Int) ∧ 0 ≤ ny ∧ ny < (s.size : Int) then
      let nxn := nx.toNat
      let nyn := ny.toNat
      let b1 := setCell s.board x y (s.cell nxn nyn)
      let b2 := setCell b1 nxn nyn (s.cell x y)
      some ⟨s.size, b2⟩
    else
      none

/-- The non-empty values of the flattened board, in row-major order
(`[n for row in self.board for n in row if n is not None]`). -/
def flatValues (s : State) : List Nat :=
  s.get_flat.filterMap id

end State

/-- Inversion count of a list of values: the number of pairs `i < j` with
`l[i] > l[j]`.  The Python double loop
`sum(1 for i ... for j in range(i+1, ...) if flat[i] > flat[j])` counts, for
each head element, the later elements it exceeds — which is exactly this
recursion. -/
def inversions : List Nat → Nat
  | [] => 0
  | a :: l => l.countP (fun b => b < a) + inversions l

namespace State

/-- `is_solvable` from `board_state.py`: inversion parity for odd sizes;
for even sizes, the parity of inversions plus the empty cell's row counted
from the bottom (`(size - 1) - empty_y`).  Python crashes when
`find_empty()` returns `None` (unpacking); that unreachable-by-invariant
case is modelled as `false`. -/
def is_solvable (s : State) : Bool :=
  let inv := inversions s.flatValues
  if s.size % 2 = 1 then
    inv % 2 = 0
  else
    match s.find_empty with
    | some (_, ey) => (inv + ((s.size - 1) - ey)) % 2 = 0
    | none => false

/-- The goal flattening of `board_state.py`: `[None] + list(range(1, size*size))`. -/
def goalFlat (n : Nat) : List Cell :=
  none :: (List.range' 1 (n * n - 1)).map some

/-- `is_finished` from `board_state.py`: the flattened board equals
`[None, 1, 2, ..., size*size - 1]`. -/
def is_finished (s : State) : Bool :=
  s.get_flat = goalFlat s.size

/-- `hamming_cost` from `board_state.py`: the number of indices whose value
is a tile (`is not None`) differing from the goal value at that index.
Python indexes `goal[i]` for `i < len(flat)` (an `IndexError` on longer
malformed flats); `getD` with default `none` stands in for that lookup. -/
def hamming_cost (s : State) : Nat :=
  let goal := goalFlat s.size
  let flat := s.get_flat
  ((List.range flat.length).map fun i =>
    match flat.getD i none with
    | none => 0
    | some v => if goal.getD i none = some v then 0 else 1).sum

/-- `manhattan_cost` from `board_state.py`: for each tile, the grid distance
between its current index and its goal index, where the goal index of value
`v` is `v` itself (empty-first convention). -/
def manhattan_cost (s : State) : Nat :=
  let flat := s.get_flat
  let size := s.size
  ((List.range flat.length).map fun i =>
    match flat.getD i none with
    | none => 0
    | some v =>
      (((i / size : Nat) : Int) - ((v / size : Nat) : Int)).natAbs +
        (((i % size : Nat) : Int) - ((v % size : Nat) : Int)).natAbs).sum

end State

/-! The legacy operations of `State.py`.  `get_flat`, `find_empty` and
`make_move` are textually identical to `board_state.py`; only the goal
convention and the even-size solvability branch differ. -/
namespace StateL

/-- Legacy goal flattening: `list(range(1, size*size)) + [None]` (empty last). -/
def goalFlatL (n : Nat) : List Cell :=
  (List.range' 1 (n * n - 1)).map some ++ [none]

/-- Legacy `is_finished` from `State.py`: flat equals `[1, ..., size*size - 1, None]`. -/
def is_finishedL (s : State) : Bool :=
  s.get_flat = goalFlatL s.size

/-- Legacy `is_solvable` from `State.py`: for even sizes it uses the empty
cell's row from the *top* (`(inversions + empty_y) % 2 == 0`). -/
def is_solvableL (s : State) : Bool :=
  let inv := inversions s.flatValues
  if s.size % 2 = 1 then
    inv % 2 = 0
  else
    match s.find_empty with
    | some (_, ey) => (inv + ey) % 2 = 0
    | none => false

/-- Legacy `hamming_cost` from `State.py` (goal `[1, ..., n*n-1, None]`). -/
def hamming_costL (s : State) : Nat :=
  let goal := goalFlatL s.size
  let flat := s.get_flat
  ((List.range flat.length).map fun i =>
    match flat.getD i none with
    | none => 0
    | some v => if goal.getD i none = some v then 0 else 1).sum

end StateL

/-! ## The A* search engine (`tree_node.py`, with the legacy `TreeNode.py`
instantiation) -/

/-- `TreeNode` from `tree_node.py` (and `TreeNode.py`): a state, an optional
back-reference to the parent node, and the path cost `g_cost` from the root. -/
inductive SNode : Type where
  | mk : State → Option SNode → Nat → SNode

/-- The node's state. -/
def SNode.state : SNode → State
  | .mk s _ _ => s

/-- The node's parent reference. -/
def SNode.parent : SNode → Option SNode
  | .mk _ p _ => p

/-- The node's `g_cost`. -/
def SNode.g : SNode → Nat
  | .mk _ _ g => g

/-- The chain of states from a node back to the root, following `parent`
references (the traversal performed by `_reconstruct_path`'s `while` loop). -/
def SNode.chain : SNode → List State
  | .mk s none _ => [s]
  | .mk s (some p) _ => s :: p.chain

/-- `_reconstruct_path`: walk the parent references from the goal node and
reverse, yielding the start-to-goal list of states. -/
def reconstructPath (n : SNode) : List State :=
  n.chain.reverse

/-- A priority-queue entry `(f_cost, tie_breaker, node)` as pushed by
`heapq.heappush(open_list, (f_cost, next(counter), node))`. -/
structure Entry where
  f : Nat
  counter : Nat
  node : SNode

/-- Lexicographic order on `(f_cost, tie_breaker)`.  Python compares the
tuples lexicographically and the unique counters mean the comparison never
reaches the nodes. -/
def Entry.keyLt (a b : Entry) : Bool :=
  a.f < b.f ∨ (a.f = b.f ∧ a.counter < b.counter)

/-- `heapq.heappop`: remove and return the entry with the least
`(f_cost, tie_breaker)` key.  The counters pushed by the search are distinct,
so this is exactly the observable behaviour of the binary heap. -/
def popMin : List Entry → Option (Entry × List Entry)
  | [] => none
  | e :: rest =>
    match popMin rest with
    | none => some (e, [])
    | some (m, rest') =>
      if m.keyLt e then some (m, e :: rest') else some (e, rest)

/-- Result of the search loop.  `outOfFuel` is an artefact of the fuel-based
embedding of the Python `while` loop and corresponds to no Python behaviour;
termination theorems show that enough fuel always exists. -/
inductive SearchResult where
  | found : List State → SearchResult
  | exhausted : SearchResult
  | outOfFuel : SearchResult
deriving DecidableEq, Repr

/-- The observable outcome of a search run: the result, the
`expanded_nodes` counter, plus two ghost observations used only by the
specification — the final closed set and the sequence of popped nodes
(which states were expanded, in order). -/
structure SearchOutcome where
  result : SearchResult
  expanded : Nat
  closed : List State
  popped : List SNode

/-- One expansion step: `for direction in SlidingDirection`, generate the
neighbour state, skip invalid moves and states in the closed set, otherwise
push `(g+1+h, next(counter), node)` onto the open list. -/
def expandNode (h : State → Nat) (cur : SNode) (closed : List State)
    (acc : List Entry × Nat) : List Entry × Nat :=
  directionOrder.foldl
    (fun (acc : List Entry × Nat) d =>
      match cur.state.make_move d with
      | none => acc
      | some ns =>
        if ns ∈ closed then acc
        else
          (acc.1 ++ [⟨cur.g + 1 + h ns, acc.2, .mk ns (some cur) (cur.g + 1)⟩],
            acc.2 + 1))
    acc

/-- The `while open_list:` loop of `solve_by_heuristic`, parameterised by the
goal test (`state.is_finished()` in `tree_node.py`, the legacy
`is_finished` in `TreeNode.py`) and the heuristic function.  Each iteration
pops the minimum entry, increments `expanded_nodes`, returns the
reconstructed path on goal, otherwise adds the state to the closed set
(`closed_set.add`, a no-op on states already present) and expands the
neighbours. -/
def aStarLoop (goal : State → Bool) (h : State → Nat) :
    Nat → List Entry → Nat → List State → Nat → List SNode → SearchOutcome
  | 0, _, _, closed, expanded, popped =>
    ⟨.outOfFuel, expanded, closed, popped⟩
  | fuel + 1, openL, counter, closed, expanded, popped =>
    match popMin openL with
    | none => ⟨.exhausted, expanded, closed, popped⟩
    | some (e, rest) =>
      let cur := e.node
      let expanded' := expanded + 1
      if goal cur.state then
        ⟨.found (reconstructPath cur), expanded', closed, popped ++ [cur]⟩
      else
        let closed' := if cur.state ∈ closed then closed else cur.state :: closed
        let oc := expandNode h cur closed' (rest, counter)
        aStarLoop goal h fuel oc.1 oc.2 closed' expanded' (popped ++ [cur])

/-- `TreeNode.solve_by_heuristic` from `tree_node.py`: push the root at
`f = h(root)` with tie-breaker `0`, start the counter at `1`, the closed set
empty and `expanded_nodes = 0`, then run the loop. -/
def solveByHeuristic (h : State → Nat) (root : State) (fuel : Nat) : SearchOutcome :=
  aStarLoop State.is_finished h fuel [⟨h root, 0, .mk root none 0⟩] 1 [] 0 []

/-- The `(path-or-None, expanded_nodes)` return value of
`tree_node.py`'s `solve_by_heuristic`. -/
def solve_by_heuristic (h : State → Nat) (root : State) (fuel : Nat) :
    Option (List State) × Nat :=
  let out := solveByHeuristic h root fuel
  (match out.result with
   | .found p => some p
   | _ => none, out.expanded)

/-- The legacy `TreeNode.solve_by_heuristic` of `TreeNode.py`: the same loop
against the legacy goal test, returning only the path. -/
def solveByHeuristicL (h : State → Nat) (root : State) (fuel : Nat) :
    Option (List State) :=
  match (aStarLoop StateL.is_finishedL h fuel
      [⟨h root, 0, .mk root none 0⟩] 1 [] 0 []).result with
  | .found p => some p
  | _ => none

/-- `TreeNode.solve_hamming` from `TreeNode.py`: if the root state is
solvable, run the legacy A* with the Hamming heuristic, else return `None`
without searching. -/
def solve_hamming (root : State) (fuel : Nat) : Option (List State) :=
  if StateL.is_solvableL root then
    solveByHeuristicL StateL.hamming_costL root fuel
  else
    none

/-! ## Construction (`State.__init__` / `randomize`, for the board-argument
and rejection-sampling behaviour) -/

/-- The chunking comprehension
`[nums[i:i+size] for i in range(0, len(nums), size)]` used by `randomize`.
Python raises `ValueError` for `size = 0` (zero step); that case is modelled
as the empty board. -/
def chunkListGo {α : Type} (size : Nat) : Nat → List α → List (List α)
  | _, [] => []
  | 0, _ :: _ => []
  | fuel + 1, a :: rest =>
    if size = 0 then []
    else (a :: rest).take size :: chunkListGo size fuel ((a :: rest).drop size)

def chunkList {α : Type} (size : Nat) (l : List α) : List (List α) :=
  chunkListGo size l.length l

/-- Truthiness of the `board` constructor argument: `if board:` is false for
`None` and for the empty list. -/
def boardTruthy : Option BoardRep → Bool
  | none => false
  | some b => !b.isEmpty

/-- `State.randomize`: shuffle the multiset `{1, ..., size*size - 1, None}`
and rebuild the 2D board until `is_solvable()` holds.  The random shuffles
are modelled as an oracle stream `shuffles : Nat → List Cell` (the `k`-th
shuffle result); the Python loop runs unboundedly, so the embedding takes
fuel and returns `none` only when the fuel runs out before a solvable
shuffle appears. -/
def randomizeFrom (size : Nat) (shuffles : Nat → List Cell) : Nat → Nat → Option State
  | 0, _ => none
  | fuel + 1, k =>
    let s : State := ⟨size, chunkList size (shuffles k)⟩
    if s.is_solvable then some s else randomizeFrom size shuffles fuel (k + 1)

/-- `State.__init__(size, board)` from `board_state.py` (identical logic in
`State.py`): a truthy `board` argument is stored as-is; otherwise the board
is generated by `randomize`. -/
def stateInit (size : Nat) (board : Option BoardRep) (shuffles : Nat → List Cell)
    (fuel : Nat) : Option State :=
  if boardTruthy board then some ⟨size, board.getD []⟩
  else randomizeFrom size shuffles fuel 0

/-! ## Specification-side notions: move sequences, reachability, the goal
state, well-formed boards -/

/-- One state follows another by a single legal move. -/
def StepRel (a b : State) : Prop := ∃ d, a.make_move d = some b

/-- Apply a sequence of moves, failing if any move is illegal. -/
def applyMoves (s : State) (ds : List SlidingDirection) : Option State :=
  ds.foldlM State.make_move s

/-- `Reaches s t m`: some sequence of `m` legal moves leads from `s` to `t`. -/
def Reaches (s t : State) (m : Nat) : Prop :=
  ∃ ds : List SlidingDirection, ds.length = m ∧ applyMoves s ds = some t

/-- The canonical goal state for a given size (empty cell first). -/
def goalState (n : Nat) : State := ⟨n, chunkList n (State.goalFlat n)⟩

namespace State

/-- The board is a `size × size` grid. -/
def Rect (s : State) : Prop :=
  s.board.length = s.size ∧ ∀ r ∈ s.board, r.length = s.size

/-- A well-formed puzzle state, per the spec's data-model invariant: a
`size × size` grid holding each tile value `1 .. size*size - 1` exactly once
and exactly one empty cell — i.e. the flattening is a permutation of the
goal flattening. -/
def WF (s : State) : Prop :=
  s.Rect ∧ s.get_flat.Perm (goalFlat s.size)

instance : DecidablePred Rect := fun s => by unfold Rect; infer_instance

instance : DecidablePred WF := fun s => by unfold WF; exact instDecidableAnd

end State

/-! ## Generic list lemmas -/

lemma sum_map_range (f : Nat → Nat) (n : Nat) :
    ((List.range n).map f).sum = ∑ i in Finset.range n, f i := by
  induction n with
  | zero => simp
  | succ n ih => rw [List.range_succ, Finset.sum_range_succ]; simp [ih]

lemma sum_diff_two {F G : Nat → Nat} {N p q : Nat} (hp : p < N) (hq : q < N) (hpq : p ≠ q)
    (hagree : ∀ i, i < N → i ≠ p → i ≠ q → F i = G i) :
    (∑ i in Finset.range N, F i) + (G p + G q) =
      (∑ i in Finset.range N, G i) + (F p + F q) := by
  classical
  have hpm : p ∈ Finset.range N := Finset.mem_range.mpr hp
  have hqm : q ∈ (Finset.range N).erase p := by
    exact Finset.mem_erase.mpr ⟨Ne.symm hpq, Finset.mem_range.mpr hq⟩
  have hF : ∑ i in Finset.range N, F i =
      (∑ i in ((Finset.range N).erase p).erase q, F i) + F q + F p := by
    rw [Finset.sum_erase_add _ _ hqm, Finset.sum_erase_add _ _ hpm]
  have hG : ∑ i in Finset.range N, G i =
      (∑ i in ((Finset.range N).erase p).erase q, G i) + G q + G p := by
    rw [Finset.sum_erase_add _ _ hqm, Finset.sum_erase_add _ _ hpm]
  have hmid : ∑ i in ((Finset.range N).erase p).erase q, F i =
      ∑ i in ((Finset.range N).erase p).erase q, G i := by
    refine Finset.sum_congr rfl ?_
    intro i hi
    have h1 : i ≠ q := (Finset.mem_erase.mp hi).1
    have h2 : i ≠ p := (Finset.mem_erase.mp (Finset.mem_erase.mp hi).2).1
    have h3 : i < N := Finset.mem_range.mp (Finset.mem_erase.mp (Finset.mem_erase.mp hi).2).2
    exact hagree i h3 h2 h1
  omega

lemma getD_set_self {α} (l : List α) (i : Nat) (v d : α) (h : i < l.length) :
    (l.set i v).getD i d = v := by
  rw [List.getD_eq_getElem _ _ (by simpa using h)]
  exact List.getElem_set_self (by simpa using h)

lemma getD_set_other {α} (l : List α) {i j : Nat} (v d : α) (h : i ≠ j) :
    (l.set i v).getD j d = l.getD j d := by
  rcases Nat.lt_or_ge j l.length with hj | hj
  · rw [List.getD_eq_getElem _ _ (by simpa using hj), List.getD_eq_getElem _ _ hj]
    exact List.getElem_set_ne h _
  · rw [List.getD_eq_default _ _ (by simpa using hj), List.getD_eq_default _ _ hj]

lemma set_append_here {α} (A R : List α) (x a : α) :
    (A ++ x :: R).set A.length a = A ++ a :: R := by
  induction A with
  | nil => rfl
  | cons y A ih => simp [List.set, ih]

lemma set_append_shift {α} (A R : List α) (i : Nat) (a : α) :
    (A ++ R).set (A.length + i) a = A ++ R.set i a := by
  induction A with
  | nil => simp
  | cons y A ih => simpa [List.set, Nat.succ_add] using ih

lemma getD_append_here {α} (A R : List α) (x d : α) :
    (A ++ x :: R).getD A.length d = x := by
  induction A with
  | nil => rfl
  | cons y A ih => simpa using ih

lemma getD_append_shift {α} (A R : List α) (i : Nat) (d : α) :
    (A ++ R).getD (A.length + i) d = R.getD i d := by
  induction A with
  | nil => simp
  | cons y A ih => simpa [Nat.succ_add] using ih

/-- Split a list around two positions `p < q`. -/
lemma exists_three_split {α} (l : List α) (p q : Nat) (hpq : p < q) (hq : q < l.length)
    (d : α) :
    ∃ A B C, l = A ++ l.getD p d :: (B ++ l.getD q d :: C) ∧
      A.length = p ∧ B.length = q - p - 1 := by
  induction l generalizing p q with
  | nil => simp at hq
  | cons x xs ih =>
    cases p with
    | zero =>
      cases q with
      | zero => omega
      | succ q' =>
        cases xs with
        | nil => simp at hq
        | cons y ys =>
          rcases Nat.eq_zero_or_pos q' with hq' | hq'
          · subst hq'
            exact ⟨[], [], ys, by simp, rfl, rfl⟩
          · have hq'' : q' < (y :: ys).length := by simpa using Nat.lt_of_succ_lt_succ hq
            obtain ⟨A, B, C, hsplit, hA, hB⟩ := ih 0 q' hq' hq''
            have hA0 : A = [] := List.length_eq_zero.mp hA
            subst hA0
            refine ⟨[], (y :: ys).getD 0 d :: B, C, ?_, rfl, ?_⟩
            · simpa using congrArg (x :: ·) hsplit
            · simp at hB ⊢; omega
    | succ p' =>
      cases q with
      | zero => omega
      | succ q' =>
        have hq'' : q' < xs.length := by simpa using Nat.lt_of_succ_lt_succ hq
        obtain ⟨A, B, C, hsplit, hA, hB⟩ := ih p' q' (by omega) hq''
        refine ⟨x :: A, B, C, by simpa using congrArg (x :: ·) hsplit, by simp [hA], ?_⟩
        rw [hB]; omega

/-- Swapping the entries at two positions of a split list. -/
lemma set_swap_of_split {α} (A B C : List α) (x y a b : α) :
    ((A ++ x :: (B ++ y :: C)).set A.length a).set (A.length + 1 + B.length) b =
      A ++ a :: (B ++ b :: C) := by
  rw [set_append_here]
  have h1 : A.length + 1 + B.length = A.length + (1 + B.length) := by omega
  rw [h1, set_append_shift]
  have h2 : (1 : Nat) + B.length = (a :: B).length := by simp; omega
  have h3 : a :: (B ++ y :: C) = (a :: B) ++ y :: C := rfl
  rw [h3, h2, set_append_here]
  simp

lemma perm_swap_of_split {α} (A B C : List α) (x y : α) :
    List.Perm (A ++ x :: (B ++ y :: C)) (A ++ y :: (B ++ x :: C)) := by
  refine List.Perm.append_left A ?_
  refine List.Perm.trans (List.Perm.cons x List.perm_middle) ?_
  exact List.Perm.trans (List.Perm.swap y x (B ++ C)) (List.Perm.cons y List.perm_middle.symm)

/-! ## Inversion-count algebra -/

/-- Cross inversions between two blocks: pairs `(x, y)` with `x` from the
first block, `y` from the second, and `y < x`. -/
def crossInv (X Y : List Nat) : Nat :=
  (X.map fun a => Y.countP fun b => b < a).sum

lemma crossInv_nil_left (Y : List Nat) : crossInv [] Y = 0 := rfl

lemma crossInv_cons_left (a : Nat) (X Y : List Nat) :
    crossInv (a :: X) Y = Y.countP (fun b => b < a) + crossInv X Y := rfl

lemma crossInv_cons_right (X : List Nat) (a : Nat) (Y : List Nat) :
    crossInv X (a :: Y) = X.countP (fun x => a < x) + crossInv X Y := by
  induction X with
  | nil => rfl
  | cons x X ih =>
    simp only [crossInv_cons_left, ih, List.countP_cons]
    simp only [crossInv] at *
    by_cases h : a < x <;> simp [h] <;> omega

lemma inversions_append (X Y : List Nat) :
    inversions (X ++ Y) = inversions X + inversions Y + crossInv X Y := by
  induction X with
  | nil => simp [inversions, crossInv]
  | cons a X ih =>
    simp only [List.cons_append, inversions, ih, List.append_eq, List.countP_append,
      crossInv_cons_left]
    omega

lemma crossInv_append_left (X Y Z : List Nat) :
    crossInv (X ++ Y) Z = crossInv X Z + crossInv Y Z := by
  simp [crossInv]

lemma crossInv_append_right (X Y Z : List Nat) :
    crossInv X (Y ++ Z) = crossInv X Y + crossInv X Z := by
  induction X with
  | nil => rfl
  | cons a X ih =>
    simp only [crossInv_cons_left, ih, List.countP_append]
    omega

lemma inversions_cons (v : Nat) (L : List Nat) :
    inversions (v :: L) = L.countP (fun b => b < v) + inversions L := rfl

/-- Moving an element `v` rightwards across a block `B` exchanges the
`B`-versus-`v` inversion contributions. -/
lemma inversions_move_across (X B C : List Nat) (v : Nat) :
    inversions (X ++ v :: (B ++ C)) + B.countP (fun b => v < b) =
      inversions (X ++ B ++ v :: C) + B.countP (fun b => b < v) := by
  have lhs : inversions (X ++ v :: (B ++ C)) =
      inversions X + (B.countP (fun b => b < v) + C.countP (fun b => b < v) +
        inversions (B ++ C)) + (X.countP (fun x => v < x) + crossInv X (B ++ C)) := by
    rw [inversions_append, inversions_cons, crossInv_cons_right, List.countP_append]
  have rhs : inversions (X ++ B ++ v :: C) =
      (inversions X + inversions B + crossInv X B) +
        (C.countP (fun b => b < v) + inversions C) +
        ((X ++ B).countP (fun x => v < x) + crossInv (X ++ B) C) := by
    rw [inversions_append, inversions_append, inversions_cons, crossInv_cons_right]
  rw [lhs, rhs, inversions_append B C, crossInv_append_right, List.countP_append,
    crossInv_append_left]
  omega

/-- For elements distinct from `v`, the two `B`-versus-`v` counts add to the
length of `B`. -/
lemma countP_lt_add_gt (B : List Nat) (v : Nat) (hv : ∀ b ∈ B, b ≠ v) :
    B.countP (fun b => b < v) + B.countP (fun b => v < b) = B.length := by
  induction B with
  | nil => rfl
  | cons b B ih =>
    have hb : b ≠ v := hv b (List.mem_cons_self b B)
    have := ih (fun x hx => hv x (List.mem_cons_of_mem b hx))
    simp only [List.countP_cons, List.length_cons]
    rcases Nat.lt_trichotomy b v with h | h | h
    · simp [h, Nat.not_lt.mpr (Nat.le_of_lt h)]; omega
    · exact absurd h hb
    · simp [h, Nat.not_lt.mpr (Nat.le_of_lt h), Nat.lt_asymm h]; omega

/-! ## Board structure lemmas -/

lemma getD_append_left {α} (A R : List α) (i : Nat) (d : α) (h : i < A.length) :
    (A ++ R).getD i d = A.getD i d := by
  rw [List.getD_eq_getElem _ _ (by simp; omega), List.getD_eq_getElem _ _ h]
  exact List.getElem_append_left h

lemma set_append_left {α} (A R : List α) (i : Nat) (a : α) (h : i < A.length) :
    (A ++ R).set i a = A.set i a ++ R := by
  induction A generalizing i with
  | nil => simp at h
  | cons x A ih =>
    cases i with
    | zero => rfl
    | succ i =>
      simp only [List.cons_append, List.set, List.append_eq]
      rw [ih i (by simpa using h)]

namespace State

lemma flatten_length_of_rows {b : BoardRep} {n : Nat} (h : ∀ r ∈ b, r.length = n) :
    b.flatten.length = b.length * n := by
  induction b with
  | nil => simp
  | cons r t ih =>
    simp only [List.flatten_cons, List.length_append, List.length_cons]
    rw [h r (List.mem_cons_self r t), ih (fun r hr => h r (List.mem_cons_of_mem _ hr))]
    ring

lemma Rect.flat_length {s : State} (h : s.Rect) : s.get_flat.length = s.size * s.size := by
  unfold get_flat
  rw [flatten_length_of_rows h.2, h.1]

lemma flatten_getD {b : BoardRep} {n : Nat} (h : ∀ r ∈ b, r.length = n) {x y : Nat}
    (hx : x < n) (hy : y < b.length) (d : Cell) :
    b.flatten.getD (y * n + x) d = (b.getD y []).getD x d := by
  induction b generalizing y with
  | nil => simp at hy
  | cons r t ih =>
    cases y with
    | zero =>
      have hr : r.length = n := h r (List.mem_cons_self r t)
      have h0 : (0 : Nat) * n + x = x := by omega
      rw [h0]
      show (r ++ t.flatten).getD x d = r.getD x d
      exact getD_append_left _ _ _ _ (by omega)
    | succ y =>
      have hr : r.length = n := h r (List.mem_cons_self r t)
      have harith : (y + 1) * n + x = r.length + (y * n + x) := by rw [hr]; ring
      simp only [List.flatten_cons]
      rw [harith, getD_append_shift]
      exact ih (fun r hr => h r (List.mem_cons_of_mem _ hr)) (by simpa using hy)

lemma cell_eq_flat {s : State} (h : s.Rect) {x y : Nat} (hx : x < s.size) (hy : y < s.size) :
    s.cell x y = s.get_flat.getD (y * s.size + x) none := by
  unfold cell get_flat
  rw [flatten_getD h.2 hx (by rw [h.1]; exact hy)]

lemma setCell_length (b : BoardRep) (x y : Nat) (v : Cell) :
    (setCell b x y v).length = b.length := by
  unfold setCell; simp

lemma setCell_rows {b : BoardRep} {n : Nat} (h : ∀ r ∈ b, r.length = n)
    (x y : Nat) (v : Cell) : ∀ r ∈ setCell b x y v, r.length = n := by
  rcases Nat.lt_or_ge y b.length with hy | hy
  · intro r hr
    rcases List.mem_or_eq_of_mem_set hr with hmem | heq
    · exact h r hmem
    · subst heq
      have hg : b.getD y [] = b[y] := List.getD_eq_getElem b [] hy
      rw [hg]
      simpa using h _ (List.getElem_mem hy)
  · unfold setCell
    rw [List.set_eq_of_length_le hy]
    exact h

lemma flatten_setCell {b : BoardRep} {n : Nat} (h : ∀ r ∈ b, r.length = n) {x y : Nat}
    (hx : x < n) (hy : y < b.length) (v : Cell) :
    (setCell b x y v).flatten = b.flatten.set (y * n + x) v := by
  induction b generalizing y with
  | nil => simp at hy
  | cons r t ih =>
    have hr : r.length = n := h r (List.mem_cons_self r t)
    cases y with
    | zero =>
      show ((r.set x v) :: t).flatten = (r ++ t.flatten).set (0 * n + x) v
      simp only [List.flatten_cons, Nat.zero_mul, Nat.zero_add]
      rw [set_append_left _ _ _ _ (by omega)]
    | succ y =>
      show (r :: setCell t x y v).flatten = (r ++ t.flatten).set ((y+1) * n + x) v
      have harith : (y + 1) * n + x = r.length + (y * n + x) := by rw [hr]; ring
      simp only [List.flatten_cons]
      rw [harith, set_append_shift,
        ih (fun r hr => h r (List.mem_cons_of_mem _ hr)) (by simpa using hy)]

end State

/-! ## Goal-list and well-formedness lemmas -/

namespace State

lemma goalFlat_length (n : Nat) : (goalFlat n).length = 1 + (n * n - 1) := by
  simp [goalFlat]
  omega

lemma goalFlat_length_pos {n : Nat} (hn : 0 < n) : (goalFlat n).length = n * n := by
  rw [goalFlat_length]
  have : 1 ≤ n * n := Nat.one_le_iff_ne_zero.mpr (by positivity)
  omega

lemma goalFlat_getD_zero (n : Nat) : (goalFlat n).getD 0 none = none := rfl

lemma goalFlat_getD {n i : Nat} (h1 : 1 ≤ i) (h2 : i < n * n) :
    (goalFlat n).getD i none = some i := by
  obtain ⟨j, rfl⟩ : ∃ j, i = j + 1 := ⟨i - 1, by omega⟩
  show ((List.range' 1 (n * n - 1)).map some).getD j none = some (j + 1)
  have hj : j < n * n - 1 := by omega
  rw [List.getD_eq_getElem _ _ (by simpa using hj)]
  simp [List.getElem_range' ]
  omega

lemma goalFlat_nodup (n : Nat) : (goalFlat n).Nodup := by
  unfold goalFlat
  refine List.Nodup.cons (by simp) ?_
  exact List.Nodup.map (fun a b h => by simpa using h) (List.nodup_range' _ _)

lemma goalFlat_none_mem (n : Nat) : none ∈ goalFlat n := List.mem_cons_self _ _

lemma WF.rect {s : State} (h : s.WF) : s.Rect := h.1

lemma WF.perm {s : State} (h : s.WF) : List.Perm s.get_flat (goalFlat s.size) := h.2

lemma WF.size_pos {s : State} (h : s.WF) : 0 < s.size := by
  rcases Nat.eq_zero_or_pos s.size with h0 | h1
  · exfalso
    have hl := h.perm.length_eq
    rw [h.rect.flat_length, goalFlat_length, h0] at hl
    omega
  · exact h1

lemma WF.get_flat_length {s : State} (h : s.WF) : s.get_flat.length = s.size * s.size :=
  h.rect.flat_length

lemma WF.nodup_flat {s : State} (h : s.WF) : s.get_flat.Nodup :=
  h.perm.nodup_iff.mpr (goalFlat_nodup s.size)

lemma WF.value_range {s : State} (h : s.WF) {i : Nat} {v : Nat}
    (hv : s.get_flat.getD i none = some v) : 1 ≤ v ∧ v < s.size * s.size := by
  have hi : i < s.get_flat.length := by
    by_contra hge
    rw [List.getD_eq_default _ _ (by omega)] at hv
    exact Option.noConfusion hv
  rw [List.getD_eq_getElem _ _ hi] at hv
  have hmem : some v ∈ s.get_flat := hv ▸ List.getElem_mem hi
  have hmem2 : some v ∈ goalFlat s.size := h.perm.mem_iff.mp hmem
  unfold goalFlat at hmem2
  rcases List.mem_cons.mp hmem2 with hbad | hgood
  · exact Option.noConfusion hbad
  · obtain ⟨w, hw, hwv⟩ := List.mem_map.mp hgood
    obtain rfl : w = v := Option.some.inj hwv
    have := List.mem_range'_1.mp hw
    have hsq : 0 < s.size * s.size := by
      have := h.size_pos; positivity
    omega

lemma WF.none_unique {s : State} (h : s.WF) {i j : Nat}
    (hi : i < s.get_flat.length) (hj : j < s.get_flat.length)
    (h1 : s.get_flat.getD i none = none) (h2 : s.get_flat.getD j none = none) : i = j := by
  rw [List.getD_eq_getElem _ _ hi] at h1
  rw [List.getD_eq_getElem _ _ hj] at h2
  exact (List.Nodup.getElem_inj_iff h.nodup_flat).mp (h1.trans h2.symm)

lemma WF.exists_none {s : State} (h : s.WF) :
    ∃ i, i < s.get_flat.length ∧ s.get_flat.getD i none = none := by
  have hmem : (none : Cell) ∈ s.get_flat := h.perm.mem_iff.mpr (goalFlat_none_mem s.size)
  obtain ⟨i, hi, hv⟩ := List.getElem_of_mem hmem
  exact ⟨i, hi, by rw [List.getD_eq_getElem _ _ hi]; exact hv⟩

end State

/-- Injectivity of row-major indexing: `y*n + x` with `x < n` determines
`x` and `y`. -/
lemma cellIdx_inj {n x x' y y' : Nat} (hx : x < n) (hx' : x' < n)
    (h : y * n + x = y' * n + x') : x = x' ∧ y = y' := by
  have hn : 0 < n := by omega
  have hmod : x = x' := by
    have h1 : (y * n + x) % n = x := by
      rw [Nat.add_comm, Nat.add_mul_mod_self_right]
      exact Nat.mod_eq_of_lt hx
    have h2 : (y' * n + x') % n = x' := by
      rw [Nat.add_comm, Nat.add_mul_mod_self_right]
      exact Nat.mod_eq_of_lt hx'
    rw [← h1, ← h2, h]
  constructor
  · exact hmod
  · subst hmod
    have := Nat.eq_of_mul_eq_mul_right hn (by omega : y * n = y' * n)
    exact this

/-! ## `find_empty` and `make_move` characterisation -/

namespace State

lemma find_empty_some_spec {s : State} {x y : Nat} (h : s.find_empty = some (x, y)) :
    x < s.size ∧ y < s.size ∧ s.cell x y = none := by
  obtain ⟨y', hy', hinner⟩ := List.exists_of_findSome?_eq_some h
  obtain ⟨x', hx', hcell⟩ := List.exists_of_findSome?_eq_some hinner
  by_cases hc : s.cell x' y' = none
  · rw [if_pos hc] at hcell
    obtain ⟨rfl, rfl⟩ : x' = x ∧ y' = y := by
      have := Option.some.inj hcell
      exact ⟨congrArg Prod.fst this, congrArg Prod.snd this⟩
    exact ⟨List.mem_range.mp hx', List.mem_range.mp hy', hc⟩
  · rw [if_neg hc] at hcell
    exact Option.noConfusion hcell

lemma find_empty_isSome_of_cell {s : State} {x y : Nat} (hx : x < s.size) (hy : y < s.size)
    (hc : s.cell x y = none) : s.find_empty.isSome := by
  rw [Option.isSome_iff_ne_none]
  intro hnone
  have houter := List.findSome?_eq_none_iff.mp hnone y (List.mem_range.mpr hy)
  have hinner := List.findSome?_eq_none_iff.mp houter x (List.mem_range.mpr hx)
  rw [if_pos hc] at hinner
  exact Option.noConfusion hinner

lemma WF.find_empty_eq {s : State} (h : s.WF) {x y : Nat} (hx : x < s.size) (hy : y < s.size)
    (hc : s.cell x y = none) : s.find_empty = some (x, y) := by
  obtain ⟨xy, hxy⟩ := Option.isSome_iff_exists.mp (find_empty_isSome_of_cell hx hy hc)
  obtain ⟨x', y'⟩ := xy
  obtain ⟨hx', hy', hc'⟩ := find_empty_some_spec hxy
  have hflat : s.get_flat.getD (y * s.size + x) none = none := by
    rw [← cell_eq_flat h.rect hx hy]; exact hc
  have hflat' : s.get_flat.getD (y' * s.size + x') none = none := by
    rw [← cell_eq_flat h.rect hx' hy']; exact hc'
  have hlen : s.get_flat.length = s.size * s.size := h.get_flat_length
  have hidx : y' * s.size + x' = y * s.size + x := by
    refine h.none_unique ?_ ?_ hflat' hflat
    · rw [hlen]
      calc y' * s.size + x' < y' * s.size + s.size := by omega
        _ = (y' + 1) * s.size := by ring
        _ ≤ s.size * s.size := Nat.mul_le_mul_right _ (by omega)
    · rw [hlen]
      calc y * s.size + x < y * s.size + s.size := by omega
        _ = (y + 1) * s.size := by ring
        _ ≤ s.size * s.size := Nat.mul_le_mul_right _ (by omega)
  obtain ⟨rfl, rfl⟩ := cellIdx_inj hx' hx hidx
  exact hxy

/-- Bound for a row-major index. -/
lemma cellIdx_lt {n x y : Nat} (hx : x < n) (hy : y < n) : y * n + x < n * n := by
  calc y * n + x < y * n + n := by omega
    _ = (y + 1) * n := by ring
    _ ≤ n * n := Nat.mul_le_mul_right _ (by omega)

/-- Flat view of a successful `make_move`: the empty cell at flat index
`p = y*size + x` and the neighbour at `q = ny*size + nx` are swapped, and the
two grid positions are adjacent (same row, adjacent columns, or same column,
adjacent rows). -/
lemma make_move_flat {s s' : State} {d : SlidingDirection}
    (hrect : s.Rect) (hmm : s.make_move d = some s') :
    ∃ x y nx ny : Nat,
      s.find_empty = some (x, y) ∧ x < s.size ∧ y < s.size ∧ nx < s.size ∧ ny < s.size ∧
      s.get_flat.getD (y * s.size + x) none = none ∧
      s'.size = s.size ∧ s'.Rect ∧
      s'.get_flat = (s.get_flat.set (y * s.size + x)
          (s.get_flat.getD (ny * s.size + nx) none)).set (ny * s.size + nx) none ∧
      (((ny = y ∧ (nx = x + 1 ∨ x = nx + 1)) ∨ (nx = x ∧ (ny = y + 1 ∨ y = ny + 1))) ∧
        (nx : Int) = (x : Int) + d.delta.1 ∧ (ny : Int) = (y : Int) + d.delta.2) := by
  match hfe : s.find_empty with
  | none =>
    unfold make_move at hmm
    rw [hfe] at hmm
    exact Option.noConfusion hmm
  | some (x, y) =>
    obtain ⟨hx, hy, hcell⟩ := find_empty_some_spec hfe
    unfold make_move at hmm
    rw [hfe] at hmm
    simp only [] at hmm
    split_ifs at hmm with hcond
    · obtain ⟨h1, h2, h3, h4⟩ := hcond
      set nxn : Nat := ((x : Int) + d.delta.1).toNat with hnxn
      set nyn : Nat := ((y : Int) + d.delta.2).toNat with hnyn
      have hs' : s' = ⟨s.size, setCell (setCell s.board x y (s.cell nxn nyn)) nxn nyn
          (s.cell x y)⟩ := (Option.some.inj hmm).symm
      have hnx : nxn < s.size := by
        have : ((x : Int) + d.delta.1) < (s.size : Int) := h2
        omega
      have hny : nyn < s.size := by
        have : ((y : Int) + d.delta.2) < (s.size : Int) := h4
        omega
      have hflatp : s.get_flat.getD (y * s.size + x) none = none := by
        rw [← cell_eq_flat hrect hx hy]; exact hcell
      have hrows1 : ∀ r ∈ setCell s.board x y (s.cell nxn nyn), r.length = s.size :=
        setCell_rows hrect.2 _ _ _
      have hlen1 : (setCell s.board x y (s.cell nxn nyn)).length = s.size := by
        rw [setCell_length, hrect.1]
      have hcellq : s.cell nxn nyn = s.get_flat.getD (nyn * s.size + nxn) none :=
        cell_eq_flat hrect hnx hny
      have hrect' : s'.Rect := by
        rw [hs']
        refine ⟨?_, ?_⟩
        · show (setCell _ nxn nyn _).length = s.size
          rw [setCell_length, hlen1]
        · exact setCell_rows hrows1 _ _ _
      have hflat' : s'.get_flat = (s.get_flat.set (y * s.size + x)
          (s.get_flat.getD (nyn * s.size + nxn) none)).set (nyn * s.size + nxn) none := by
        rw [hs']
        show (setCell (setCell s.board x y (s.cell nxn nyn)) nxn nyn (s.cell x y)).flatten = _
        rw [flatten_setCell hrows1 hnx (by rw [hlen1]; exact hny),
          flatten_setCell hrect.2 hx (by rw [hrect.1]; exact hy), hcell, hcellq]
        rfl
      refine ⟨x, y, nxn, nyn, rfl, hx, hy, hnx, hny, hflatp, by rw [hs'],
        hrect', hflat', ?_⟩
      clear hmm hs' hflat' hrect' hcellq hlen1 hrows1 hflatp hcell
      cases d
      all_goals simp only [SlidingDirection.delta, Prod.fst, Prod.snd] at hnxn hnyn h1 h2 h3 h4 ⊢
      all_goals omega

/-- `make_move` preserves the `size` attribute. -/
lemma make_move_size {s s' : State} {d : SlidingDirection} (hmm : s.make_move d = some s') :
    s'.size = s.size := by
  unfold make_move at hmm
  match hfe : s.find_empty with
  | none => rw [hfe] at hmm; exact Option.noConfusion hmm
  | some (x, y) =>
    rw [hfe] at hmm
    simp only [] at hmm
    split_ifs at hmm with hcond
    exact (congrArg State.size (Option.some.inj hmm)).symm

end State

/-! ## Permutation invariance of the swap, and well-formedness preservation -/

lemma set_set_perm_lt {α} (l : List α) (d : α) {p q : Nat} (hpq : p < q) (hq : q < l.length) :
    List.Perm ((l.set p (l.getD q d)).set q (l.getD p d)) l := by
  obtain ⟨A, B, C, hsplit, hA, hB⟩ := exists_three_split l p q hpq hq d
  set x := l.getD p d with hxdef
  set y := l.getD q d with hydef
  have hq' : q = A.length + (B.length + 1) := by omega
  have h1 : l.set p y = A ++ y :: (B ++ y :: C) := by
    conv_lhs => rw [hsplit, ← hA]
    exact set_append_here A (B ++ y :: C) x y
  have h2 : (l.set p y).set q x = A ++ y :: (B ++ x :: C) := by
    rw [h1, hq', set_append_shift]
    congr 1
    exact set_append_here (y :: B) C y x
  rw [h2]
  conv_rhs => rw [hsplit]
  exact (perm_swap_of_split A B C x y).symm

lemma set_set_perm {α} (l : List α) (d : α) {p q : Nat} (hp : p < l.length)
    (hq : q < l.length) (hpq : p ≠ q) :
    List.Perm ((l.set p (l.getD q d)).set q (l.getD p d)) l := by
  rcases Nat.lt_or_ge p q with h | h
  · exact set_set_perm_lt l d h hq
  · have hqp : q < p := by omega
    rw [List.set_comm _ _ _ hpq]
    exact set_set_perm_lt l d hqp hp

namespace State

lemma WF.make_move_WF {s s' : State} {d : SlidingDirection} (h : s.WF)
    (hmm : s.make_move d = some s') : s'.WF := by
  obtain ⟨x, y, nx, ny, hfe, hx, hy, hnx, hny, hflatp, hsize, hrect', hflat', hadj, hdx, hdy⟩ :=
    make_move_flat h.rect hmm
  refine ⟨hrect', ?_⟩
  rw [hflat', hsize]
  have hlen : s.get_flat.length = s.size * s.size := h.get_flat_length
  have hplt : y * s.size + x < s.get_flat.length := by rw [hlen]; exact cellIdx_lt hx hy
  have hqlt : ny * s.size + nx < s.get_flat.length := by rw [hlen]; exact cellIdx_lt hnx hny
  have hpq : y * s.size + x ≠ ny * s.size + nx := by
    intro heq
    obtain ⟨hxx, hyy⟩ := cellIdx_inj hx hnx heq
    omega
  have hperm := set_set_perm s.get_flat none hplt hqlt hpq
  rw [hflatp] at hperm
  exact hperm.trans h.perm

/-- Two different legal moves from a well-formed state give different states. -/
lemma make_move_ne_of_dir_ne {s t₁ t₂ : State} {d₁ d₂ : SlidingDirection} (h : s.WF)
    (hd : d₁ ≠ d₂) (h1 : s.make_move d₁ = some t₁) (h2 : s.make_move d₂ = some t₂) :
    t₁ ≠ t₂ := by
  obtain ⟨x₁, y₁, nx₁, ny₁, hfe₁, hx₁, hy₁, hnx₁, hny₁, hflatp₁, hsz₁, hrect₁, hflat₁,
    hadj₁, hdx₁, hdy₁⟩ := make_move_flat h.rect h1
  obtain ⟨x₂, y₂, nx₂, ny₂, hfe₂, hx₂, hy₂, hnx₂, hny₂, hflatp₂, hsz₂, hrect₂, hflat₂,
    hadj₂, hdx₂, hdy₂⟩ := make_move_flat h.rect h2
  have hpair : (x₁, y₁) = ((x₂, y₂) : Nat × Nat) :=
    Option.some.inj (hfe₁.symm.trans hfe₂)
  have ex : x₁ = x₂ := congrArg Prod.fst hpair
  have ey : y₁ = y₂ := congrArg Prod.snd hpair
  subst ex
  subst ey
  have hdelta : d₁.delta ≠ d₂.delta := by
    cases d₁ <;> cases d₂ <;> simp_all [SlidingDirection.delta]
  have hnene : ¬ (nx₁ = nx₂ ∧ ny₁ = ny₂) := by
    rintro ⟨e1, e2⟩
    apply hdelta
    have c1 : d₁.delta.1 = d₂.delta.1 := by omega
    have c2 : d₁.delta.2 = d₂.delta.2 := by omega
    exact Prod.ext c1 c2
  have hlen : s.get_flat.length = s.size * s.size := h.get_flat_length
  have hq12 : ny₁ * s.size + nx₁ ≠ ny₂ * s.size + nx₂ := by
    intro heq
    obtain ⟨e1, e2⟩ := cellIdx_inj hnx₁ hnx₂ heq
    exact hnene ⟨e1, e2⟩
  have hq2p : ny₂ * s.size + nx₂ ≠ y₁ * s.size + x₁ := by
    intro heq
    obtain ⟨e1, e2⟩ := cellIdx_inj hnx₂ hx₁ heq
    omega
  intro hteq
  have hflats : t₁.get_flat = t₂.get_flat := by rw [hteq]
  have hq2lt : ny₂ * s.size + nx₂ < s.get_flat.length := by
    rw [hlen]; exact cellIdx_lt hnx₂ hny₂
  have hplt : y₁ * s.size + x₁ < s.get_flat.length := by
    rw [hlen]; exact cellIdx_lt hx₁ hy₁
  have hv2 : t₂.get_flat.getD (ny₂ * s.size + nx₂) none = none := by
    rw [hflat₂]
    exact getD_set_self _ _ _ _ (by simpa using hq2lt)
  have hv1 : t₁.get_flat.getD (ny₂ * s.size + nx₂) none
      = s.get_flat.getD (ny₂ * s.size + nx₂) none := by
    rw [hflat₁, getD_set_other _ _ _ hq12, getD_set_other _ _ _ (Ne.symm hq2p)]
  have : ny₂ * s.size + nx₂ = y₁ * s.size + x₁ :=
    h.none_unique hq2lt hplt (by rw [← hv1, hflats]; exact hv2) hflatp₁
  exact hq2p this

end State

/-! ## Heuristic lemmas: dominance, zero characterisation, consistency -/

namespace State

/-- The per-index term of `hamming_cost`. -/
def hamTermF (flat goal : List Cell) (i : Nat) : Nat :=
  match flat.getD i none with
  | none => 0
  | some v => if goal.getD i none = some v then 0 else 1

/-- The per-index term of `manhattan_cost`. -/
def manTermF (flat : List Cell) (n : Nat) (i : Nat) : Nat :=
  match flat.getD i none with
  | none => 0
  | some v =>
    (((i / n : Nat) : Int) - ((v / n : Nat) : Int)).natAbs +
      (((i % n : Nat) : Int) - ((v % n : Nat) : Int)).natAbs

lemma hamming_eq_map_sum (s : State) :
    s.hamming_cost =
      ((List.range s.get_flat.length).map
        (hamTermF s.get_flat (goalFlat s.size))).sum := rfl

lemma manhattan_eq_map_sum (s : State) :
    s.manhattan_cost =
      ((List.range s.get_flat.length).map (manTermF s.get_flat s.size)).sum := rfl

lemma hamTermF_le_one (flat goal : List Cell) (i : Nat) : hamTermF flat goal i ≤ 1 := by
  unfold hamTermF
  rcases hfv : flat.getD i none with _ | v
  · exact Nat.zero_le 1
  · dsimp only
    split <;> omega

lemma cellIdx_div_mod {n x y : Nat} (hx : x < n) :
    (y * n + x) / n = y ∧ (y * n + x) % n = x := by
  have hn : 0 < n := by omega
  constructor
  · rw [Nat.add_comm, Nat.add_mul_div_right _ _ hn, Nat.div_eq_of_lt hx]
    omega
  · rw [Nat.add_comm, Nat.add_mul_mod_self_right, Nat.mod_eq_of_lt hx]

/-- Under well-formedness, the Manhattan term dominates the Hamming term. -/
lemma WF.manTerm_ge_hamTerm {s : State} (h : s.WF) {i : Nat} (hi : i < s.get_flat.length) :
    hamTermF s.get_flat (goalFlat s.size) i ≤ manTermF s.get_flat s.size i := by
  unfold hamTermF manTermF
  rcases hfv : s.get_flat.getD i none with _ | v
  · exact Nat.le_refl 0
  · obtain ⟨hv1, hv2⟩ := h.value_range hfv
    dsimp only
    by_cases hg : (goalFlat s.size).getD i none = some v
    · rw [if_pos hg]
      exact Nat.zero_le _
    · rw [if_neg hg]
      by_contra hlt
      have hzero : (((i / s.size : Nat) : Int) - ((v / s.size : Nat) : Int)).natAbs = 0 ∧
          (((i % s.size : Nat) : Int) - ((v % s.size : Nat) : Int)).natAbs = 0 := by omega
      have hdiv : i / s.size = v / s.size := by
        have := hzero.1; omega
      have hmod : i % s.size = v % s.size := by
        have := hzero.2; omega
      have hiv : i = v := by
        have h1 := Nat.div_add_mod i s.size
        have h2 := Nat.div_add_mod v s.size
        rw [← h1, ← h2, hdiv, hmod]
      subst hiv
      exact hg (goalFlat_getD hv1 (by rw [← h.get_flat_length]; exact hi))

lemma WF.hamming_le_manhattan {s : State} (h : s.WF) :
    s.hamming_cost ≤ s.manhattan_cost := by
  rw [hamming_eq_map_sum, manhattan_eq_map_sum]
  refine List.sum_le_sum ?_
  intro i hi
  exact h.manTerm_ge_hamTerm (List.mem_range.mp hi)

lemma is_finished_iff (s : State) : s.is_finished = true ↔ s.get_flat = goalFlat s.size := by
  unfold is_finished
  exact decide_eq_true_iff

lemma WF.hamming_eq_zero_iff {s : State} (h : s.WF) :
    (s.hamming_cost = 0 ↔ s.is_finished = true) := by
  have hN : s.get_flat.length = s.size * s.size := h.get_flat_length
  have hNpos : 0 < s.get_flat.length := by
    rw [hN]
    have := h.size_pos; positivity
  rw [hamming_eq_map_sum, is_finished_iff]
  constructor
  · intro hz
    have hterm : ∀ i, i < s.get_flat.length →
        hamTermF s.get_flat (goalFlat s.size) i = 0 := by
      intro i hi
      exact List.sum_eq_zero_iff.mp hz _ (List.mem_map.mpr ⟨i, List.mem_range.mpr hi, rfl⟩)
    have hzeropos : s.get_flat.getD 0 none = none := by
      match h0 : s.get_flat.getD 0 none with
      | none => rfl
      | some w =>
        exfalso
        have := hterm 0 hNpos
        unfold hamTermF at this
        rw [h0] at this
        rw [goalFlat_getD_zero] at this
        simp at this
    refine List.ext_getElem (by rw [hN, goalFlat_length_pos h.size_pos]) ?_
    intro i hi1 hi2
    have hti := hterm i hi1
    unfold hamTermF at hti
    rw [← List.getD_eq_getElem s.get_flat none hi1, ← List.getD_eq_getElem _ none hi2]
    match hfv : s.get_flat.getD i none with
    | none =>
      have : i = 0 := h.none_unique hi1 hNpos hfv hzeropos
      subst this
      rw [goalFlat_getD_zero]
    | some v =>
      rw [hfv] at hti
      dsimp only at hti
      split at hti
      · next hg => rw [hg]
      · omega
  · intro hfin
    refine List.sum_eq_zero_iff.mpr ?_
    intro t ht
    obtain ⟨i, hi, rfl⟩ := List.mem_map.mp ht
    have hi' := List.mem_range.mp hi
    unfold hamTermF
    rw [hfin]
    match hfv : (goalFlat s.size).getD i none with
    | none => rfl
    | some v => simp [hfv]

lemma WF.manhattan_eq_zero_iff {s : State} (h : s.WF) :
    (s.manhattan_cost = 0 ↔ s.is_finished = true) := by
  have hN : s.get_flat.length = s.size * s.size := h.get_flat_length
  have hNpos : 0 < s.get_flat.length := by
    rw [hN]
    have := h.size_pos; positivity
  rw [manhattan_eq_map_sum, is_finished_iff]
  constructor
  · intro hz
    have hterm : ∀ i, i < s.get_flat.length → manTermF s.get_flat s.size i = 0 := by
      intro i hi
      exact List.sum_eq_zero_iff.mp hz _ (List.mem_map.mpr ⟨i, List.mem_range.mpr hi, rfl⟩)
    have hzeropos : s.get_flat.getD 0 none = none := by
      match h0 : s.get_flat.getD 0 none with
      | none => rfl
      | some w =>
        exfalso
        obtain ⟨hw1, hw2⟩ := h.value_range h0
        have hz := hterm 0 hNpos
        unfold manTermF at hz
        rw [h0] at hz
        dsimp only at hz
        simp only [Nat.zero_div, Nat.zero_mod, Nat.cast_zero, zero_sub, Int.natAbs_neg] at hz
        have hdiv0 : w / s.size = 0 := by omega
        have hmod0 : w % s.size = 0 := by omega

        have hwdm := Nat.div_add_mod w s.size
        rw [hdiv0, hmod0] at hwdm
        simp at hwdm
        omega
    refine List.ext_getElem (by rw [hN, goalFlat_length_pos h.size_pos]) ?_
    intro i hi1 hi2
    have hti := hterm i hi1
    unfold manTermF at hti
    rw [← List.getD_eq_getElem s.get_flat none hi1, ← List.getD_eq_getElem _ none hi2]
    match hfv : s.get_flat.getD i none with
    | none =>
      have : i = 0 := h.none_unique hi1 hNpos hfv hzeropos
      subst this
      rw [goalFlat_getD_zero]
    | some v =>
      rw [hfv] at hti
      dsimp only at hti
      obtain ⟨hv1, hv2⟩ := h.value_range hfv
      have hdiv : i / s.size = v / s.size := by omega
      have hmod : i % s.size = v % s.size := by omega
      have hiv : i = v := by
        have hdm1 := Nat.div_add_mod i s.size
        have hdm2 := Nat.div_add_mod v s.size
        rw [← hdm1, ← hdm2, hdiv, hmod]
      subst hiv
      rw [goalFlat_getD hv1 (by rw [← hN]; exact hi1)]
  · intro hfin
    refine List.sum_eq_zero_iff.mpr ?_
    intro t ht
    obtain ⟨i, hi, rfl⟩ := List.mem_map.mp ht
    have hi' := List.mem_range.mp hi
    have hi2 : i < (goalFlat s.size).length := by rw [← hfin]; exact hi'
    unfold manTermF
    rw [hfin]
    match hfv : (goalFlat s.size).getD i none with
    | none => rfl
    | some v =>
      have : v = i := by
        rcases Nat.eq_zero_or_pos i with h0 | hpos
        · subst h0; rw [goalFlat_getD_zero] at hfv; exact Option.noConfusion hfv
        · have hilen : i < s.size * s.size := by
            rw [← goalFlat_length_pos h.size_pos]; exact hi2
          rw [goalFlat_getD hpos hilen] at hfv
          exact (Option.some.inj hfv).symm
      subst this
      simp
end State

/-! ## Heuristic consistency under moves -/

namespace State

lemma move_flat_facts {s s' : State} {d : SlidingDirection} (h : s.WF)
    (hmm : s.make_move d = some s') :
    ∃ p q v, p < s.size * s.size ∧ q < s.size * s.size ∧ p ≠ q ∧
      s.get_flat.getD p none = none ∧ s.get_flat.getD q none = some v ∧
      s'.size = s.size ∧
      s'.get_flat = (s.get_flat.set p (some v)).set q none ∧
      s'.get_flat.length = s.get_flat.length ∧
      ((q = p + 1 ∧ q / s.size = p / s.size ∧ q % s.size = p % s.size + 1) ∨
       (p = q + 1 ∧ p / s.size = q / s.size ∧ p % s.size = q % s.size + 1) ∨
       (q = p + s.size ∧ q / s.size = p / s.size + 1 ∧ q % s.size = p % s.size) ∨
       (p = q + s.size ∧ p / s.size = q / s.size + 1 ∧ p % s.size = q % s.size)) := by
  obtain ⟨x, y, nx, ny, hfe, hx, hy, hnx, hny, hflatp, hsize, hrect', hflat', hadj, hdx, hdy⟩ :=
    make_move_flat h.rect hmm
  have hlen : s.get_flat.length = s.size * s.size := h.get_flat_length
  have hplt : y * s.size + x < s.size * s.size := cellIdx_lt hx hy
  have hqlt : ny * s.size + nx < s.size * s.size := cellIdx_lt hnx hny
  have hpq : y * s.size + x ≠ ny * s.size + nx := by
    intro heq
    obtain ⟨e1, e2⟩ := cellIdx_inj hx hnx heq
    omega
  have hvq : ∃ v, s.get_flat.getD (ny * s.size + nx) none = some v := by
    rcases hcq : s.get_flat.getD (ny * s.size + nx) none with _ | v
    · exact absurd (h.none_unique (by omega) (by omega) hcq hflatp) (Ne.symm hpq)
    · exact ⟨v, rfl⟩
  obtain ⟨v, hv⟩ := hvq
  obtain ⟨hpd, hpm⟩ := cellIdx_div_mod (n := s.size) (x := x) (y := y) hx
  obtain ⟨hqd, hqm⟩ := cellIdx_div_mod (n := s.size) (x := nx) (y := ny) hnx
  refine ⟨y * s.size + x, ny * s.size + nx, v, hplt, hqlt, hpq, hflatp, hv, hsize,
    by rw [hflat', hv], by rw [hflat']; simp, ?_⟩
  rw [hpd, hpm, hqd, hqm]
  rcases hadj with ⟨hyy, hxx | hxx⟩ | ⟨hxx, hyy | hyy⟩
  · exact Or.inl ⟨by rw [hyy, hxx]; ring, by rw [hyy], by rw [hxx]⟩
  · exact Or.inr (Or.inl ⟨by rw [hyy, hxx]; ring, by rw [hyy], by rw [hxx]⟩)
  · exact Or.inr (Or.inr (Or.inl ⟨by rw [hyy, hxx]; ring, by rw [hyy], by rw [hxx]⟩))
  · exact Or.inr (Or.inr (Or.inr ⟨by rw [hyy, hxx]; ring, by rw [hyy], by rw [hxx]⟩))

lemma WF.hamming_move_bound {s s' : State} {d : SlidingDirection} (h : s.WF)
    (hmm : s.make_move d = some s') :
    s.hamming_cost ≤ s'.hamming_cost + 1 ∧ s'.hamming_cost ≤ s.hamming_cost + 1 := by
  obtain ⟨p, q, v, hplt, hqlt, hpq, hfp, hfq, hsize, hflat', hlen', hadj⟩ :=
    move_flat_facts h hmm
  have hlen : s.get_flat.length = s.size * s.size := h.get_flat_length
  have hflen' : s'.get_flat.length = s.size * s.size := by rw [hlen']; exact hlen
  have e1 : s.hamming_cost =
      ∑ i in Finset.range (s.size * s.size), hamTermF s.get_flat (goalFlat s.size) i := by
    rw [hamming_eq_map_sum, hlen, sum_map_range]
  have e2 : s'.hamming_cost =
      ∑ i in Finset.range (s.size * s.size), hamTermF s'.get_flat (goalFlat s.size) i := by
    rw [hamming_eq_map_sum, hflen', hsize, sum_map_range]
  have hagree : ∀ i, i < s.size * s.size → i ≠ p → i ≠ q →
      hamTermF s'.get_flat (goalFlat s.size) i = hamTermF s.get_flat (goalFlat s.size) i := by
    intro i hi hip hiq
    unfold hamTermF
    rw [hflat', getD_set_other _ _ _ (Ne.symm hiq), getD_set_other _ _ _ (Ne.symm hip)]
  have hkey := sum_diff_two (F := hamTermF s'.get_flat (goalFlat s.size))
    (G := hamTermF s.get_flat (goalFlat s.size)) hplt hqlt hpq hagree
  have hGp : hamTermF s.get_flat (goalFlat s.size) p = 0 := by
    unfold hamTermF; rw [hfp]
  have hFq : hamTermF s'.get_flat (goalFlat s.size) q = 0 := by
    unfold hamTermF
    rw [hflat', getD_set_self _ _ _ _ (by rw [List.length_set, hlen]; exact hqlt)]
  have hFp := hamTermF_le_one s'.get_flat (goalFlat s.size) p
  have hGq := hamTermF_le_one s.get_flat (goalFlat s.size) q
  rw [← e1, ← e2] at hkey
  omega

lemma WF.manhattan_move_bound {s s' : State} {d : SlidingDirection} (h : s.WF)
    (hmm : s.make_move d = some s') :
    s.manhattan_cost ≤ s'.manhattan_cost + 1 ∧
      s'.manhattan_cost ≤ s.manhattan_cost + 1 := by
  obtain ⟨p, q, v, hplt, hqlt, hpq, hfp, hfq, hsize, hflat', hlen', hadj⟩ :=
    move_flat_facts h hmm
  have hlen : s.get_flat.length = s.size * s.size := h.get_flat_length
  have hflen' : s'.get_flat.length = s.size * s.size := by rw [hlen']; exact hlen
  have e1 : s.manhattan_cost =
      ∑ i in Finset.range (s.size * s.size), manTermF s.get_flat s.size i := by
    rw [manhattan_eq_map_sum, hlen, sum_map_range]
  have e2 : s'.manhattan_cost =
      ∑ i in Finset.range (s.size * s.size), manTermF s'.get_flat s.size i := by
    rw [manhattan_eq_map_sum, hflen', hsize, sum_map_range]
  have hagree : ∀ i, i < s.size * s.size → i ≠ p → i ≠ q →
      manTermF s'.get_flat s.size i = manTermF s.get_flat s.size i := by
    intro i hi hip hiq
    unfold manTermF
    rw [hflat', getD_set_other _ _ _ (Ne.symm hiq), getD_set_other _ _ _ (Ne.symm hip)]
  have hkey := sum_diff_two (F := manTermF s'.get_flat s.size)
    (G := manTermF s.get_flat s.size) hplt hqlt hpq hagree
  have hGp : manTermF s.get_flat s.size p = 0 := by
    unfold manTermF; rw [hfp]
  have hFq : manTermF s'.get_flat s.size q = 0 := by
    unfold manTermF
    rw [hflat', getD_set_self _ _ _ _ (by rw [List.length_set, hlen]; exact hqlt)]
  have hFpv : s'.get_flat.getD p none = some v := by
    rw [hflat', getD_set_other _ _ _ (Ne.symm hpq), getD_set_self _ _ _ _ (by rw [hlen]; exact hplt)]
  have hFpG : manTermF s'.get_flat s.size p =
      (((p / s.size : Nat) : Int) - ((v / s.size : Nat) : Int)).natAbs +
        (((p % s.size : Nat) : Int) - ((v % s.size : Nat) : Int)).natAbs := by
    unfold manTermF; rw [hFpv]
  have hGqG : manTermF s.get_flat s.size q =
      (((q / s.size : Nat) : Int) - ((v / s.size : Nat) : Int)).natAbs +
        (((q % s.size : Nat) : Int) - ((v % s.size : Nat) : Int)).natAbs := by
    unfold manTermF; rw [hfq]
  have hclose : manTermF s.get_flat s.size q ≤ manTermF s'.get_flat s.size p + 1 ∧
      manTermF s'.get_flat s.size p ≤ manTermF s.get_flat s.size q + 1 := by
    rw [hFpG, hGqG]
    rcases hadj with ⟨he, hd1, hm1⟩ | ⟨he, hd1, hm1⟩ | ⟨he, hd1, hm1⟩ | ⟨he, hd1, hm1⟩ <;>
      · rw [hd1, hm1]
        omega
  rw [← e1, ← e2] at hkey
  omega

/-- Consistency interface used by the search-optimality proof: one legal move
decreases the heuristic by at most one. -/
def HCons (h : State → Nat) : Prop :=
  ∀ ⦃s s' : State⦄ (d : SlidingDirection), s.WF → s.make_move d = some s' →
    h s ≤ h s' + 1

lemma hamming_hcons : HCons hamming_cost := by
  intro s s' d hWF hmm
  exact (hWF.hamming_move_bound hmm).1

lemma manhattan_hcons : HCons manhattan_cost := by
  intro s s' d hWF hmm
  exact (hWF.manhattan_move_bound hmm).1

end State

/-! ## Solvability: parity invariance under moves -/

lemma filterMap_id_length {l : List Cell} (h : ∀ x ∈ l, x ≠ none) :
    (l.filterMap id).length = l.length := by
  induction l with
  | nil => rfl
  | cons a t ih =>
    rcases a with _ | v
    · exact absurd rfl (h none (List.mem_cons_self _ _))
    · simp only [List.filterMap_cons, id]
      rw [List.length_cons, List.length_cons,
        ih (fun x hx => h x (List.mem_cons_of_mem _ hx))]

/-- Moving a tile `v` across a block `B` of tiles (no empties, all different
from `v`): the two inversion counts differ by the `B`-versus-`v` comparison
counts, which add up to `|B|`. -/
lemma inversions_relation (A B C : List Cell) (v : Nat)
    (hB : ∀ x ∈ B, x ≠ none)
    (hvB : ∀ b ∈ B.filterMap id, b ≠ v) :
    inversions ((A ++ some v :: (B ++ none :: C)).filterMap id) +
        (B.filterMap id).countP (fun b => v < b) =
      inversions ((A ++ none :: (B ++ some v :: C)).filterMap id) +
        (B.filterMap id).countP (fun b => b < v) ∧
    (B.filterMap id).countP (fun b => b < v) + (B.filterMap id).countP (fun b => v < b)
      = B.length := by
  have h1 : (A ++ some v :: (B ++ none :: C)).filterMap id =
      A.filterMap id ++ v :: (B.filterMap id ++ C.filterMap id) := by
    simp [List.filterMap_append]
  have h2 : (A ++ none :: (B ++ some v :: C)).filterMap id =
      A.filterMap id ++ (B.filterMap id ++ v :: C.filterMap id) := by
    simp [List.filterMap_append]
  constructor
  · rw [h1, h2, ← List.append_assoc]
    exact inversions_move_across (A.filterMap id) (B.filterMap id) (C.filterMap id) v
  · rw [countP_lt_add_gt _ _ hvB]
    exact filterMap_id_length hB

namespace State

lemma is_solvable_of_find {s : State} {x y : Nat} (hfe : s.find_empty = some (x, y)) :
    s.is_solvable = (if s.size % 2 = 1 then decide (inversions s.flatValues % 2 = 0)
      else decide ((inversions s.flatValues + ((s.size - 1) - y)) % 2 = 0)) := by
  unfold is_solvable
  rw [hfe]

/-- The board-position parity relation: one legal move preserves
`is_solvable` exactly. -/
lemma WF.is_solvable_move {s s' : State} {d : SlidingDirection} (h : s.WF)
    (hmm : s.make_move d = some s') : s'.is_solvable = s.is_solvable := by
  obtain ⟨x, y, nx, ny, hfe, hx, hy, hnx, hny, hflatp, hsize, hrect', hflat', hadj, hdx, hdy⟩ :=
    make_move_flat h.rect hmm
  have h' : s'.WF := h.make_move_WF hmm
  have hlen : s.get_flat.length = s.size * s.size := h.get_flat_length
  have hplt : y * s.size + x < s.get_flat.length := by rw [hlen]; exact cellIdx_lt hx hy
  have hqlt : ny * s.size + nx < s.get_flat.length := by rw [hlen]; exact cellIdx_lt hnx hny
  have hpq : y * s.size + x ≠ ny * s.size + nx := by
    intro heq
    obtain ⟨e1, e2⟩ := cellIdx_inj hx hnx heq
    omega
  obtain ⟨v, hv⟩ : ∃ v, s.get_flat.getD (ny * s.size + nx) none = some v := by
    rcases hcq : s.get_flat.getD (ny * s.size + nx) none with _ | v
    · exact absurd (h.none_unique hqlt hplt hcq hflatp) (Ne.symm hpq)
    · exact ⟨v, rfl⟩
  -- the new empty cell is at (nx, ny)
  have hfe' : s'.find_empty = some (nx, ny) := by
    refine h'.find_empty_eq (by rw [hsize]; exact hnx) (by rw [hsize]; exact hny) ?_
    rw [cell_eq_flat h'.rect (by rw [hsize]; exact hnx) (by rw [hsize]; exact hny), hsize,
      hflat']
    exact getD_set_self _ _ _ _ (by rw [List.length_set, hlen]; exact cellIdx_lt hnx hny)
  -- inversion parity relation
  have hnodup : s.get_flat.Nodup := h.nodup_flat
  have key : (inversions s'.flatValues + inversions s.flatValues) % 2
      = (((ny * s.size + nx) - (y * s.size + x)) + ((y * s.size + x) - (ny * s.size + nx))
          - 1) % 2 := by
    rcases Nat.lt_or_ge (y * s.size + x) (ny * s.size + nx) with hlt | hge
    · -- p < q : empty before the tile
      obtain ⟨A, B, C, hsplit, hA, hB⟩ :=
        exists_three_split s.get_flat (y * s.size + x) (ny * s.size + nx) hlt hqlt none
      rw [hflatp, hv] at hsplit
      have hsplit' : s'.get_flat = A ++ some v :: (B ++ none :: C) := by
        rw [hflat', hv]
        conv_lhs => rw [hsplit, ← hA]
        have hq' : ny * s.size + nx = A.length + 1 + B.length := by omega
        rw [hq']
        exact set_swap_of_split A B C none (some v) (some v) none
      have hnd : (A ++ none :: (B ++ some v :: C)).Nodup := by rw [← hsplit]; exact hnodup
      have hnd2 : (none :: (B ++ some v :: C)).Nodup := hnd.of_append_right
      have hBnone : ∀ c ∈ B, c ≠ none := by
        intro c hc hceq
        subst hceq
        exact (List.nodup_cons.mp hnd2).1 (List.mem_append_left _ hc)
      have hBv : ∀ b ∈ B.filterMap id, b ≠ v := by
        intro b hb hbv
        obtain ⟨a, ha, hav⟩ := List.mem_filterMap.mp hb
        have haa : some v ∈ B := by
          have hae : a = some v := by simpa [hbv] using hav
          rwa [hae] at ha
        have hdisj := List.disjoint_of_nodup_append (List.nodup_cons.mp hnd2).2
        exact hdisj haa (List.mem_cons_self _ _)
      obtain ⟨hrel, hsum⟩ := inversions_relation A B C v hBnone hBv
      have hvals : s.flatValues = (A ++ none :: (B ++ some v :: C)).filterMap id := by
        unfold flatValues
        rw [← hsplit]
      have hvals' : s'.flatValues = (A ++ some v :: (B ++ none :: C)).filterMap id := by
        unfold flatValues
        rw [← hsplit']
      rw [hvals, hvals']
      omega
    · -- q < p : the tile before the empty
      have hqp : ny * s.size + nx < y * s.size + x := by omega
      obtain ⟨A, B, C, hsplit, hA, hB⟩ :=
        exists_three_split s.get_flat (ny * s.size + nx) (y * s.size + x) hqp hplt none
      rw [hflatp, hv] at hsplit
      have hsplit' : s'.get_flat = A ++ none :: (B ++ some v :: C) := by
        rw [hflat', hv, List.set_comm _ _ _ hpq]
        conv_lhs => rw [hsplit, ← hA]
        have hp' : y * s.size + x = A.length + 1 + B.length := by omega
        rw [hp']
        exact set_swap_of_split A B C (some v) none none (some v)
      have hnd : (A ++ some v :: (B ++ none :: C)).Nodup := by rw [← hsplit]; exact hnodup
      have hnd2 : (some v :: (B ++ none :: C)).Nodup := hnd.of_append_right
      have hBnone : ∀ c ∈ B, c ≠ none := by
        intro c hc hceq
        subst hceq
        have hdisj := List.disjoint_of_nodup_append (List.nodup_cons.mp hnd2).2
        exact hdisj hc (List.mem_cons_self _ _)
      have hBv : ∀ b ∈ B.filterMap id, b ≠ v := by
        intro b hb hbv
        obtain ⟨a, ha, hav⟩ := List.mem_filterMap.mp hb
        have haa : some v ∈ B := by
          have hae : a = some v := by simpa [hbv] using hav
          rwa [hae] at ha
        exact (List.nodup_cons.mp hnd2).1 (List.mem_append_left _ haa)
      obtain ⟨hrel, hsum⟩ := inversions_relation A B C v hBnone hBv
      have hvals : s.flatValues = (A ++ some v :: (B ++ none :: C)).filterMap id := by
        unfold flatValues
        rw [← hsplit]
      have hvals' : s'.flatValues = (A ++ none :: (B ++ some v :: C)).filterMap id := by
        unfold flatValues
        rw [← hsplit']
      rw [hvals, hvals']
      omega
  -- assemble the boolean equality
  rw [is_solvable_of_find hfe, is_solvable_of_find hfe', hsize]
  rcases hadj with ⟨hyy, hxx⟩ | ⟨hxx, hyy⟩
  · -- horizontal move: same row, inversions parity unchanged
    have hgap : (ny * s.size + nx) - (y * s.size + x) + ((y * s.size + x) - (ny * s.size + nx))
        = 1 := by
      rcases hxx with hxx | hxx <;> (rw [hyy, hxx] at *; omega)
    split_ifs with hpar
    · refine decide_eq_decide.mpr ⟨fun hh => ?_, fun hh => ?_⟩ <;> omega
    · rw [hyy]
      refine decide_eq_decide.mpr ⟨fun hh => ?_, fun hh => ?_⟩ <;> omega
  · -- vertical move: inversions parity shifts by size - 1, empty row by one
    have hgap : (ny * s.size + nx) - (y * s.size + x) + ((y * s.size + x) - (ny * s.size + nx))
        = s.size := by
      rcases hyy with hyy | hyy <;>
        · rw [hxx] at *
          rw [hyy] at *
          ring_nf
          omega
    split_ifs with hpar
    · refine decide_eq_decide.mpr ⟨fun hh => ?_, fun hh => ?_⟩ <;> omega
    · have hne : s.size % 2 = 0 := by omega
      refine decide_eq_decide.mpr ⟨fun hh => ?_, fun hh => ?_⟩ <;>
        · rcases hyy with hyy | hyy <;> omega
  
end State

/-! ## Move sequences and reachability -/

lemma applyMoves_nil (s : State) : applyMoves s [] = some s := rfl

lemma applyMoves_cons (s : State) (d : SlidingDirection) (ds : List SlidingDirection) :
    applyMoves s (d :: ds) = (s.make_move d).bind (fun t => applyMoves t ds) := by
  unfold applyMoves
  rw [List.foldlM_cons]
  rcases s.make_move d with _ | t <;> rfl

lemma applyMoves_append (s : State) (l₁ l₂ : List SlidingDirection) :
    applyMoves s (l₁ ++ l₂) = (applyMoves s l₁).bind (fun t => applyMoves t l₂) := by
  induction l₁ generalizing s with
  | nil => rfl
  | cons d ds ih =>
    rw [List.cons_append, applyMoves_cons, applyMoves_cons]
    rcases s.make_move d with _ | t
    · rfl
    · exact ih t

lemma reaches_refl (s : State) : Reaches s s 0 := ⟨[], rfl, rfl⟩

lemma reaches_snoc {s t t' : State} {m : Nat} (h : Reaches s t m) {d : SlidingDirection}
    (hd : t.make_move d = some t') : Reaches s t' (m + 1) := by
  obtain ⟨ds, hlen, happ⟩ := h
  refine ⟨ds ++ [d], by simp [hlen], ?_⟩
  rw [applyMoves_append, happ]
  show applyMoves t [d] = some t'
  rw [applyMoves_cons, hd]
  rfl

lemma reaches_succ_elim {s t : State} {m : Nat} (h : Reaches s t (m + 1)) :
    ∃ u d, Reaches s u m ∧ u.make_move d = some t := by
  obtain ⟨ds, hlen, happ⟩ := h
  have hne : ds ≠ [] := by intro heq; subst heq; simp at hlen
  rcases List.eq_nil_or_concat ds with rfl | ⟨ds', d, rfl⟩
  · exact absurd rfl hne
  rw [List.concat_eq_append] at hlen happ
  rw [applyMoves_append] at happ
  rcases hmid : applyMoves s ds' with _ | u
  · rw [hmid] at happ; exact Option.noConfusion happ
  · rw [hmid] at happ
    have : applyMoves u [d] = some t := happ
    rw [applyMoves_cons] at this
    rcases hmv : u.make_move d with _ | t'
    · rw [hmv] at this; exact Option.noConfusion this
    · rw [hmv] at this
      have ht : t' = t := Option.some.inj this
      subst ht
      refine ⟨u, d, ⟨ds', by simpa using hlen, hmid⟩, hmv⟩

lemma reaches_WF {s t : State} {m : Nat} (hWF : s.WF) (h : Reaches s t m) : t.WF := by
  induction m generalizing t with
  | zero =>
    obtain ⟨ds, hlen, happ⟩ := h
    rw [List.length_eq_zero.mp hlen] at happ
    rw [← Option.some.inj happ]
    exact hWF
  | succ m ih =>
    obtain ⟨u, d, hu, hd⟩ := reaches_succ_elim h
    exact (ih hu).make_move_WF hd

lemma reaches_size {s t : State} {m : Nat} (h : Reaches s t m) : t.size = s.size := by
  induction m generalizing t with
  | zero =>
    obtain ⟨ds, hlen, happ⟩ := h
    rw [List.length_eq_zero.mp hlen] at happ
    rw [← Option.some.inj happ]
  | succ m ih =>
    obtain ⟨u, d, hu, hd⟩ := reaches_succ_elim h
    rw [State.make_move_size hd, ih hu]

lemma reaches_solvable {s t : State} {m : Nat} (hWF : s.WF) (h : Reaches s t m) :
    t.is_solvable = s.is_solvable := by
  induction m generalizing t with
  | zero =>
    obtain ⟨ds, hlen, happ⟩ := h
    rw [List.length_eq_zero.mp hlen] at happ
    rw [← Option.some.inj happ]
  | succ m ih =>
    obtain ⟨u, d, hu, hd⟩ := reaches_succ_elim h
    rw [State.WF.is_solvable_move (reaches_WF hWF hu) hd, ih hu]

/-! ## Valid search nodes -/

/-- The nodes constructed by the search: the root node, and children built
by one legal move from their parent with `g` incremented. -/
inductive ValidNode (root : State) : SNode → Prop where
  | root : ValidNode root (.mk root none 0)
  | step {p : SNode} {s : State} {d : SlidingDirection} :
      ValidNode root p → p.state.make_move d = some s →
      ValidNode root (.mk s (some p) (p.g + 1))

lemma SNode.chain_head (nd : SNode) : nd.chain.head? = some nd.state := by
  rcases nd with ⟨s, _ | p, g⟩ <;> rfl

lemma SNode.chain_ne_nil (nd : SNode) : nd.chain ≠ [] := by
  rcases nd with ⟨s, _ | p, g⟩ <;> simp [SNode.chain]

lemma SNode.chain_cons (s : State) (p : SNode) (g : Nat) :
    (SNode.mk s (some p) g).chain = s :: p.chain := rfl

lemma vn_reaches {root : State} {nd : SNode} (h : ValidNode root nd) :
    Reaches root nd.state nd.g := by
  induction h with
  | root => exact reaches_refl root
  | step hp hmv ih => exact reaches_snoc ih hmv

lemma vn_wf {root : State} (hroot : root.WF) {nd : SNode} (h : ValidNode root nd) :
    nd.state.WF :=
  reaches_WF hroot (vn_reaches h)

lemma vn_chain_length {root : State} {nd : SNode} (h : ValidNode root nd) :
    nd.chain.length = nd.g + 1 := by
  induction h with
  | root => rfl
  | step hp hmv ih => simp [SNode.chain_cons, SNode.g, ih]

lemma vn_chain_last {root : State} {nd : SNode} (h : ValidNode root nd) :
    nd.chain.getLast? = some root := by
  induction h with
  | root => rfl
  | step hp hmv ih =>
    next p s d =>
      rw [SNode.chain_cons]
      rw [List.getLast?_cons]
      rw [← ih]
      rcases hc : p.chain with _ | ⟨a, l⟩
      · exact absurd hc (SNode.chain_ne_nil p)
      · rfl

lemma vn_chain_chain' {root : State} {nd : SNode} (h : ValidNode root nd) :
    List.Chain' (fun a b => StepRel b a) nd.chain := by
  induction h with
  | root => simp [SNode.chain]
  | step hp hmv ih =>
    next p s d =>
      rw [SNode.chain_cons]
      refine List.chain'_cons'.mpr ⟨?_, ih⟩
      intro b hb
      rw [SNode.chain_head p] at hb
      rw [← Option.some.inj hb]
      exact ⟨d, hmv⟩

lemma vn_chain_all {root : State} {nd : SNode} (h : ValidNode root nd) :
    ∀ t ∈ nd.chain, ∃ m, Reaches root t m := by
  induction h with
  | root =>
    intro t ht
    have he : t = root := by simpa [SNode.chain] using ht
    exact ⟨0, by rw [he]; exact reaches_refl root⟩
  | step hp hmv ih =>
    next p s d =>
      intro t ht
      rw [SNode.chain_cons] at ht
      rcases List.mem_cons.mp ht with rfl | ht
      · exact ⟨p.g + 1, vn_reaches (ValidNode.step hp hmv)⟩
      · exact ih t ht

/-! ## Priority-queue pop lemmas -/

lemma popMin_cons_none {a : Entry} {t : List Entry} (hr : popMin t = none) :
    popMin (a :: t) = some (a, []) := by
  simp [popMin, hr]

lemma popMin_cons_some {a m : Entry} {t rest' : List Entry}
    (hr : popMin t = some (m, rest')) :
    popMin (a :: t) = if m.keyLt a then some (m, a :: rest') else some (a, t) := by
  simp [popMin, hr]

lemma popMin_eq_none {l : List Entry} : popMin l = none ↔ l = [] := by
  constructor
  · intro h
    cases l with
    | nil => rfl
    | cons e rest =>
      rcases hr : popMin rest with _ | ⟨m, rest'⟩
      · rw [popMin_cons_none hr] at h
        exact Option.noConfusion h
      · rw [popMin_cons_some hr] at h
        split at h <;> exact Option.noConfusion h
  · intro h; subst h; rfl

lemma popMin_perm {l : List Entry} {e : Entry} {rest : List Entry}
    (h : popMin l = some (e, rest)) : List.Perm l (e :: rest) := by
  induction l generalizing e rest with
  | nil => exact Option.noConfusion h
  | cons a t ih =>
    rcases hr : popMin t with _ | ⟨m, rest'⟩
    · rw [popMin_cons_none hr] at h
      have ht : t = [] := popMin_eq_none.mp hr
      subst ht
      simp only [Option.some.injEq, Prod.mk.injEq] at h
      obtain ⟨rfl, rfl⟩ := h
      exact List.Perm.refl _
    · rw [popMin_cons_some hr] at h
      split at h
      · simp only [Option.some.injEq, Prod.mk.injEq] at h
        obtain ⟨rfl, rfl⟩ := h
        have hperm := ih hr
        refine List.Perm.trans (List.Perm.cons a hperm) ?_
        exact List.Perm.swap _ _ _
      · simp only [Option.some.injEq, Prod.mk.injEq] at h
        obtain ⟨rfl, rfl⟩ := h
        exact List.Perm.refl _

lemma popMin_min_f {l : List Entry} {e : Entry} {rest : List Entry}
    (h : popMin l = some (e, rest)) : ∀ x ∈ l, e.f ≤ x.f := by
  induction l generalizing e rest with
  | nil => exact Option.noConfusion h
  | cons a t ih =>
    rcases hr : popMin t with _ | ⟨m, rest'⟩
    · rw [popMin_cons_none hr] at h
      have ht : t = [] := popMin_eq_none.mp hr
      subst ht
      simp only [Option.some.injEq, Prod.mk.injEq] at h
      obtain ⟨rfl, rfl⟩ := h
      intro x hx
      rcases List.mem_cons.mp hx with rfl | hx
      · exact Nat.le_refl _
      · simp at hx
    · rw [popMin_cons_some hr] at h
      split at h
      · next hlt =>
        simp only [Option.some.injEq, Prod.mk.injEq] at h
        obtain ⟨rfl, rfl⟩ := h
        intro x hx
        rcases List.mem_cons.mp hx with rfl | hx
        · unfold Entry.keyLt at hlt
          simp at hlt
          omega
        · exact ih hr x hx
      · next hlt =>
        simp only [Option.some.injEq, Prod.mk.injEq] at h
        obtain ⟨rfl, rfl⟩ := h
        intro x hx
        rcases List.mem_cons.mp hx with rfl | hx
        · exact Nat.le_refl _
        · have hm := ih hr x hx
          unfold Entry.keyLt at hlt
          simp at hlt
          omega

/-! ## Expansion characterisation -/

/-- The entries pushed while expanding `cur` over a list of directions,
starting from tie-break counter `c`. -/
def pushList (h : State → Nat) (cur : SNode) (closed : List State) :
    List SlidingDirection → Nat → List Entry
  | [], _ => []
  | d :: ds, c =>
    match cur.state.make_move d with
    | none => pushList h cur closed ds c
    | some ns =>
      if ns ∈ closed then pushList h cur closed ds c
      else ⟨cur.g + 1 + h ns, c, .mk ns (some cur) (cur.g + 1)⟩ ::
        pushList h cur closed ds (c + 1)

lemma expand_go (h : State → Nat) (cur : SNode) (closed : List State) :
    ∀ (ds : List SlidingDirection) (op : List Entry) (c : Nat),
      ds.foldl (fun (acc : List Entry × Nat) d =>
        match cur.state.make_move d with
        | none => acc
        | some ns =>
          if ns ∈ closed then acc
          else
            (acc.1 ++ [⟨cur.g + 1 + h ns, acc.2, .mk ns (some cur) (cur.g + 1)⟩],
              acc.2 + 1)) (op, c)
      = (op ++ pushList h cur closed ds c,
          c + (pushList h cur closed ds c).length) := by
  intro ds
  induction ds with
  | nil => intro op c; simp [pushList]
  | cons d ds ih =>
    intro op c
    rw [List.foldl_cons]
    rcases hmv : cur.state.make_move d with _ | ns
    · show ds.foldl _ (op, c) = _
      rw [ih op c]
      simp [pushList, hmv]
    · by_cases hcl : ns ∈ closed
      · show ds.foldl _ (if ns ∈ closed then (op, c) else _) = _
        rw [if_pos hcl, ih op c]
        simp [pushList, hmv, hcl]
      · show ds.foldl _ (if ns ∈ closed then (op, c) else _) = _
        rw [if_neg hcl]
        show ds.foldl _ (op ++ [_], c + 1) = _
        rw [ih]
        simp only [pushList, hmv, if_neg hcl]
        refine Prod.ext ?_ ?_
        · simp
        · simp
          omega

lemma expandNode_eq (h : State → Nat) (cur : SNode) (closed : List State)
    (op : List Entry) (c : Nat) :
    expandNode h cur closed (op, c)
      = (op ++ pushList h cur closed directionOrder c,
          c + (pushList h cur closed directionOrder c).length) := by
  unfold expandNode
  exact expand_go h cur closed directionOrder op c

lemma pushList_mem {h : State → Nat} {cur : SNode} {closed : List State}
    {ds : List SlidingDirection} {c : Nat} {e : Entry}
    (he : e ∈ pushList h cur closed ds c) :
    ∃ d ∈ ds, ∃ ns, cur.state.make_move d = some ns ∧ ns ∉ closed ∧
      e.node = .mk ns (some cur) (cur.g + 1) ∧ e.f = cur.g + 1 + h ns ∧ c ≤ e.counter := by
  induction ds generalizing c with
  | nil => simp [pushList] at he
  | cons d ds ih =>
    rw [pushList] at he
    rcases hmv : cur.state.make_move d with _ | ns
    · rw [hmv] at he
      obtain ⟨d', hd', rest⟩ := ih he
      exact ⟨d', List.mem_cons_of_mem _ hd', rest⟩
    · rw [hmv] at he
      dsimp only at he
      by_cases hcl : ns ∈ closed
      · rw [if_pos hcl] at he
        obtain ⟨d', hd', rest⟩ := ih he
        exact ⟨d', List.mem_cons_of_mem _ hd', rest⟩
      · rw [if_neg hcl] at he
        rcases List.mem_cons.mp he with rfl | he
        · exact ⟨d, List.mem_cons_self _ _, ns, hmv, hcl, rfl, rfl, Nat.le_refl _⟩
        · obtain ⟨d', hd', ns', hmv', hcl', hnode, hf, hc⟩ := ih he
          exact ⟨d', List.mem_cons_of_mem _ hd', ns', hmv', hcl', hnode, hf, by omega⟩

lemma pushList_counter_lt {h : State → Nat} {cur : SNode} {closed : List State}
    {ds : List SlidingDirection} {c : Nat} :
    ∀ e ∈ pushList h cur closed ds c,
      e.counter < c + (pushList h cur closed ds c).length := by
  induction ds generalizing c with
  | nil => simp [pushList]
  | cons d ds ih =>
    rw [pushList]
    rcases hmv : cur.state.make_move d with _ | ns
    · exact fun e he => ih e he
    · dsimp only
      by_cases hcl : ns ∈ closed
      · rw [if_pos hcl]
        exact fun e he => ih e he
      · rw [if_neg hcl]
        intro e he
        rcases List.mem_cons.mp he with rfl | he
        · simp
        · have := ih e he
          simp only [List.length_cons]
          omega

lemma pushList_states_nodup {h : State → Nat} {cur : SNode} {closed : List State}
    (hwf : cur.state.WF) {ds : List SlidingDirection} (hds : ds.Nodup) (c : Nat) :
    ((pushList h cur closed ds c).map (fun e => e.node.state)).Nodup := by
  induction ds generalizing c with
  | nil => simp [pushList]
  | cons d ds ih =>
    rw [pushList]
    have hds' := (List.nodup_cons.mp hds).2
    have hdnot := (List.nodup_cons.mp hds).1
    rcases hmv : cur.state.make_move d with _ | ns
    · exact ih hds' c
    · dsimp only
      by_cases hcl : ns ∈ closed
      · rw [if_pos hcl]
        exact ih hds' c
      · rw [if_neg hcl]
        rw [List.map_cons]
        refine List.nodup_cons.mpr ⟨?_, ih hds' (c + 1)⟩
        intro hmem
        obtain ⟨e, he, hst⟩ := List.mem_map.mp hmem
        obtain ⟨d', hd', ns', hmv', hcl', hnode, _, _⟩ := pushList_mem he
        have hst' : e.node.state = ns' := by rw [hnode]; rfl
        have hne : ns' ≠ ns := by
          refine State.make_move_ne_of_dir_ne hwf ?_ hmv' hmv
          intro hdd
          subst hdd
          exact hdnot hd'
        apply hne
        rw [← hst', hst]
        rfl

lemma pushList_cover {h : State → Nat} {cur : SNode} {closed : List State}
    {ds : List SlidingDirection} {d : SlidingDirection} (hd : d ∈ ds) {ns : State}
    (hmv : cur.state.make_move d = some ns) (hns : ns ∉ closed) (c : Nat) :
    ∃ e ∈ pushList h cur closed ds c, e.node = .mk ns (some cur) (cur.g + 1) := by
  induction ds generalizing c with
  | nil => simp at hd
  | cons d₀ ds ih =>
    rw [pushList]
    rcases List.mem_cons.mp hd with rfl | hd'
    · rw [hmv]
      dsimp only
      rw [if_neg hns]
      exact ⟨_, List.mem_cons_self _ _, rfl⟩
    · rcases hmv₀ : cur.state.make_move d₀ with _ | ns₀
      · exact ih hd' c
      · dsimp only
        by_cases hcl : ns₀ ∈ closed
        · rw [if_pos hcl]
          exact ih hd' c
        · rw [if_neg hcl]
          obtain ⟨e, he, hnode⟩ := ih hd' (c + 1)
          exact ⟨e, List.mem_cons_of_mem _ he, hnode⟩

/-! ## The search-loop invariant -/

lemma aStarLoop_zero (goal : State → Bool) (h : State → Nat) (openL : List Entry)
    (counter : Nat) (closed : List State) (expanded : Nat) (popped : List SNode) :
    aStarLoop goal h 0 openL counter closed expanded popped
      = ⟨.outOfFuel, expanded, closed, popped⟩ := rfl

lemma aStarLoop_empty {goal : State → Bool} {h : State → Nat} {openL : List Entry}
    {fuel counter : Nat} {closed : List State} {expanded : Nat} {popped : List SNode}
    (hpop : popMin openL = none) :
    aStarLoop goal h (fuel + 1) openL counter closed expanded popped
      = ⟨.exhausted, expanded, closed, popped⟩ := by
  conv_lhs => rw [aStarLoop]
  rw [hpop]

lemma aStarLoop_goal {goal : State → Bool} {h : State → Nat} {openL : List Entry}
    {fuel counter : Nat} {closed : List State} {expanded : Nat} {popped : List SNode}
    {e : Entry} {rest : List Entry}
    (hpop : popMin openL = some (e, rest)) (hgoal : goal e.node.state = true) :
    aStarLoop goal h (fuel + 1) openL counter closed expanded popped
      = ⟨.found (reconstructPath e.node), expanded + 1, closed, popped ++ [e.node]⟩ := by
  conv_lhs => rw [aStarLoop]
  rw [hpop]
  simp only [hgoal, if_true]

lemma aStarLoop_step {goal : State → Bool} {h : State → Nat} {openL : List Entry}
    {fuel counter : Nat} {closed : List State} {expanded : Nat} {popped : List SNode}
    {e : Entry} {rest : List Entry}
    (hpop : popMin openL = some (e, rest)) (hgoal : goal e.node.state = false) :
    aStarLoop goal h (fuel + 1) openL counter closed expanded popped
      = aStarLoop goal h fuel
          (rest ++ pushList h e.node
            (if e.node.state ∈ closed then closed else e.node.state :: closed)
            directionOrder counter)
          (counter + (pushList h e.node
            (if e.node.state ∈ closed then closed else e.node.state :: closed)
            directionOrder counter).length)
          (if e.node.state ∈ closed then closed else e.node.state :: closed)
          (expanded + 1) (popped ++ [e.node]) := by
  conv_lhs => rw [aStarLoop]
  rw [hpop]
  simp only [hgoal, Bool.false_eq_true, if_false]
  rw [expandNode_eq]

/-- The invariant maintained by every iteration of the search loop (stated
over the loop arguments; `fuel` and `expanded` need no constraints). -/
structure LoopInv (goal : State → Bool) (h : State → Nat) (root : State)
    (openL : List Entry) (counter : Nat) (closed : List State)
    (popped : List SNode) : Prop where
  open_valid : ∀ e ∈ openL, ValidNode root e.node
  open_f : ∀ e ∈ openL, e.f = e.node.g + h e.node.state
  open_ctr : ∀ e ∈ openL, e.counter < counter
  open_chain_nodup : ∀ e ∈ openL, e.node.chain.Nodup
  open_tail_closed : ∀ e ∈ openL, ∀ t ∈ e.node.chain.tail, t ∈ closed
  open_parent_popped : ∀ e ∈ openL, e.node.parent = none ∨ ∃ p ∈ popped, e.node.parent = some p
  chains_nodup : (openL.map (fun e => e.node.chain) ++ popped.map SNode.chain).Nodup
  popped_valid : ∀ nd ∈ popped, ValidNode root nd
  popped_chain_nodup : ∀ nd ∈ popped, nd.chain.Nodup
  popped_closed : ∀ nd ∈ popped, nd.state ∈ closed
  closed_not_goal : ∀ t ∈ closed, goal t = false
  closed_nodup : closed.Nodup
  root_cov : root ∈ closed ∨ ∃ e ∈ openL, e.node.state = root ∧ e.node.g = 0

/-- The Dijkstra-style frontier-coverage invariant, needed only for
optimality (its preservation uses heuristic consistency). -/
def DijInv (root : State) (openL : List Entry) (closed : List State) : Prop :=
  ∀ t ∈ closed, ∀ (d : SlidingDirection) (s' : State), t.make_move d = some s' →
    s' ∈ closed ∨ ∃ e ∈ openL, e.node.state = s' ∧
      ∀ m, Reaches root t m → e.node.g ≤ m + 1

lemma loopInv_init (goal : State → Bool) (h : State → Nat) (root : State) :
    LoopInv goal h root [⟨h root, 0, .mk root none 0⟩] 1 [] [] := by
  constructor
  · intro e he
    rw [List.mem_singleton.mp he]
    exact ValidNode.root
  · intro e he
    rw [List.mem_singleton.mp he]
    simp [SNode.g, SNode.state]
  · intro e he
    rw [List.mem_singleton.mp he]
    exact Nat.zero_lt_one
  · intro e he
    rw [List.mem_singleton.mp he]
    simp [SNode.chain]
  · intro e he t ht
    rw [List.mem_singleton.mp he] at ht
    simp [SNode.chain] at ht
  · intro e he
    rw [List.mem_singleton.mp he]
    exact Or.inl rfl
  · simp [SNode.chain]
  · intro nd hnd
    simp at hnd
  · intro nd hnd
    simp at hnd
  · intro nd hnd
    simp at hnd
  · intro t ht
    simp at ht
  · exact List.nodup_nil
  · exact Or.inr ⟨⟨h root, 0, .mk root none 0⟩, List.mem_singleton_self _, rfl, rfl⟩

lemma dijInv_init (root : State) (openL : List Entry) : DijInv root openL [] := by
  intro t ht
  simp at ht

lemma SNode.chain_eq (nd : SNode) : nd.chain = nd.state :: nd.chain.tail := by
  rcases nd with ⟨s, _ | p, g⟩ <;> rfl

lemma SNode.parent_none_chain {nd : SNode} (h : nd.parent = none) :
    nd.chain = [nd.state] := by
  rcases nd with ⟨s, _ | p, g⟩
  · rfl
  · exact Option.noConfusion h

lemma mem_directionOrder (d : SlidingDirection) : d ∈ directionOrder := by
  cases d <;> simp [directionOrder]

lemma SNode.parent_some_chain {nd : SNode} {p : SNode} (h : nd.parent = some p) :
    nd.chain = nd.state :: p.chain := by
  rcases nd with ⟨s, _ | q, g⟩
  · exact Option.noConfusion h
  · have : q = p := Option.some.inj h
    rw [← this]
    rfl

lemma directionOrder_nodup : directionOrder.Nodup := by
  simp [directionOrder]

lemma inv_preserved {goal : State → Bool} {h : State → Nat} {root : State}
    {openL : List Entry} {counter : Nat} {closed : List State} {popped : List SNode}
    {e : Entry} {rest : List Entry}
    (hroot : root.WF)
    (inv : LoopInv goal h root openL counter closed popped)
    (hpop : popMin openL = some (e, rest))
    (hgoal : goal e.node.state = false) :
    LoopInv goal h root
      (rest ++ pushList h e.node
        (if e.node.state ∈ closed then closed else e.node.state :: closed)
        directionOrder counter)
      (counter + (pushList h e.node
        (if e.node.state ∈ closed then closed else e.node.state :: closed)
        directionOrder counter).length)
      (if e.node.state ∈ closed then closed else e.node.state :: closed)
      (popped ++ [e.node]) := by
  set cur := e.node with hcur
  set closed' := if cur.state ∈ closed then closed else cur.state :: closed with hclosed'
  set pushes := pushList h cur closed' directionOrder counter with hpushes
  have hperm := popMin_perm hpop
  have he_mem : e ∈ openL := hperm.mem_iff.mpr (List.mem_cons_self _ _)
  have hrest_mem : ∀ x ∈ rest, x ∈ openL := fun x hx =>
    hperm.mem_iff.mpr (List.mem_cons_of_mem _ hx)
  have hsub_closed : ∀ t ∈ closed, t ∈ closed' := by
    intro t ht
    rw [hclosed']
    split
    · exact ht
    · exact List.mem_cons_of_mem _ ht
  have hcur_closed : cur.state ∈ closed' := by
    rw [hclosed']
    split
    · assumption
    · exact List.mem_cons_self _ _
  have hcur_valid : ValidNode root cur := inv.open_valid e he_mem
  have hcur_wf : cur.state.WF := vn_wf hroot hcur_valid
  have hcur_tail : ∀ t ∈ cur.chain.tail, t ∈ closed := inv.open_tail_closed e he_mem
  have hcur_chain_sub : ∀ t ∈ cur.chain, t ∈ closed' := by
    intro t ht
    rw [SNode.chain_eq cur] at ht
    rcases List.mem_cons.mp ht with rfl | ht
    · exact hcur_closed
    · exact hsub_closed _ (hcur_tail t ht)
  have hpush_node : ∀ x ∈ pushes, ∃ ns d, cur.state.make_move d = some ns ∧ ns ∉ closed' ∧
      x.node = SNode.mk ns (some cur) (cur.g + 1) := by
    intro x hx
    obtain ⟨d, _, ns, hmv, hns, hnode, _, _⟩ := pushList_mem hx
    exact ⟨ns, d, hmv, hns, hnode⟩
  have hpush_chain : ∀ x ∈ pushes, x.node.chain = x.node.state :: cur.chain := by
    intro x hx
    obtain ⟨ns, d, hmv, hns, hnode⟩ := hpush_node x hx
    rw [hnode]
    rfl
  have hpush_not_closed : ∀ x ∈ pushes, x.node.state ∉ closed' := by
    intro x hx
    obtain ⟨ns, d, hmv, hns, hnode⟩ := hpush_node x hx
    rw [hnode]
    exact hns
  have hpush_valid : ∀ x ∈ pushes, ValidNode root x.node := by
    intro x hx
    obtain ⟨ns, d, hmv, hns, hnode⟩ := hpush_node x hx
    rw [hnode]
    exact ValidNode.step hcur_valid hmv
  have hcur_chain_pos : 0 < cur.chain.length :=
    List.length_pos.mpr (SNode.chain_ne_nil cur)
  -- chain bookkeeping for the old open list
  have hmapperm : List.Perm (openL.map fun x => x.node.chain)
      (cur.chain :: rest.map fun x => x.node.chain) := by
    have := hperm.map (fun x => x.node.chain)
    simpa using this
  have hold_perm : List.Perm ((openL.map fun x => x.node.chain) ++ popped.map SNode.chain)
      (cur.chain :: ((rest.map fun x => x.node.chain) ++ popped.map SNode.chain)) := by
    have h1 := hmapperm.append_right (popped.map SNode.chain)
    exact h1
  have hnew_all : (cur.chain :: ((rest.map fun x => x.node.chain)
      ++ popped.map SNode.chain)).Nodup :=
    hold_perm.nodup_iff.mp inv.chains_nodup
  have hcur_notin_rest : cur.chain ∉ (rest.map fun x => x.node.chain) := fun hmem =>
    (List.nodup_cons.mp hnew_all).1 (List.mem_append_left _ hmem)
  have hcur_notin_popped : cur.chain ∉ popped.map SNode.chain := fun hmem =>
    (List.nodup_cons.mp hnew_all).1 (List.mem_append_right _ hmem)
  have hrest_popped_nodup : ((rest.map fun x => x.node.chain)
      ++ popped.map SNode.chain).Nodup := (List.nodup_cons.mp hnew_all).2
  -- a pushed chain never equals an existing chain
  have hpush_fresh_rest : ∀ x ∈ pushes, x.node.chain ∉ (rest.map fun y => y.node.chain) := by
    intro x hx hmem
    obtain ⟨ns, d, hmv, hns, hnode⟩ := hpush_node x hx
    have hxchain : x.node.chain = ns :: cur.chain := by rw [hnode]; rfl
    obtain ⟨er, her, hcr⟩ := List.mem_map.mp hmem
    have herchain : er.node.chain = ns :: cur.chain := by rw [hcr, hxchain]
    rcases inv.open_parent_popped er (hrest_mem er her) with hpar | ⟨p, hp, hpar⟩
    · rw [SNode.parent_none_chain hpar] at herchain
      have hlen : (ns :: cur.chain).length = 1 := by rw [← herchain]; rfl
      rw [List.length_cons] at hlen
      omega
    · have hchain2 : er.node.chain = er.node.state :: p.chain :=
        SNode.parent_some_chain hpar
      rw [hchain2] at herchain
      have htails : p.chain = cur.chain := (List.cons.inj herchain).2
      exact hcur_notin_popped (List.mem_map.mpr ⟨p, hp, htails⟩)
  have hpush_fresh_popped : ∀ x ∈ pushes, x.node.chain ∉ popped.map SNode.chain := by
    intro x hx hmem
    obtain ⟨ns, d, hmv, hns, hnode⟩ := hpush_node x hx
    have hxchain : x.node.chain = ns :: cur.chain := by rw [hnode]; rfl
    obtain ⟨np, hnp, hcp⟩ := List.mem_map.mp hmem
    have hnpchain : np.chain = ns :: cur.chain := by rw [hcp, hxchain]
    have hcons : np.state :: np.chain.tail = ns :: cur.chain := by
      rw [← SNode.chain_eq]
      exact hnpchain
    have hhead : np.state = ns := (List.cons.inj hcons).1
    have : ns ∈ closed := hhead ▸ inv.popped_closed np hnp
    exact hns (hsub_closed _ this)
  have hpush_ne_cur : ∀ x ∈ pushes, x.node.chain ≠ cur.chain := by
    intro x hx hxc
    obtain ⟨ns, d, hmv, hns, hnode⟩ := hpush_node x hx
    have hxchain : x.node.chain = ns :: cur.chain := by rw [hnode]; rfl
    rw [hxchain] at hxc
    have := congrArg List.length hxc
    simp at this
  have hpush_chains_nodup : (pushes.map fun x => x.node.chain).Nodup := by
    have h1 : (pushes.map fun x => x.node.chain)
        = (pushes.map fun x => x.node.state).map (fun s => s :: cur.chain) := by
      rw [List.map_map]
      exact List.map_congr_left (fun x hx => hpush_chain x hx)
    rw [h1]
    refine List.Nodup.map ?_ (pushList_states_nodup hcur_wf directionOrder_nodup counter)
    intro a b hab
    exact (List.cons.inj hab).1
  constructor
  · -- open_valid
    intro x hx
    rcases List.mem_append.mp hx with hx | hx
    · exact inv.open_valid x (hrest_mem x hx)
    · exact hpush_valid x hx
  · -- open_f
    intro x hx
    rcases List.mem_append.mp hx with hx | hx
    · exact inv.open_f x (hrest_mem x hx)
    · obtain ⟨d, _, ns, hmv, hns, hnode, hf, _⟩ := pushList_mem hx
      rw [hf, hnode]
      rfl
  · -- open_ctr
    intro x hx
    rcases List.mem_append.mp hx with hx | hx
    · have := inv.open_ctr x (hrest_mem x hx)
      omega
    · exact pushList_counter_lt x hx
  · -- open_chain_nodup
    intro x hx
    rcases List.mem_append.mp hx with hx | hx
    · exact inv.open_chain_nodup x (hrest_mem x hx)
    · rw [hpush_chain x hx]
      refine List.nodup_cons.mpr ⟨?_, inv.open_chain_nodup e he_mem⟩
      intro hmem
      exact hpush_not_closed x hx (hcur_chain_sub _ hmem)
  · -- open_tail_closed
    intro x hx t ht
    rcases List.mem_append.mp hx with hx | hx
    · exact hsub_closed _ (inv.open_tail_closed x (hrest_mem x hx) t ht)
    · rw [hpush_chain x hx] at ht
      exact hcur_chain_sub t ht
  · -- open_parent_popped
    intro x hx
    rcases List.mem_append.mp hx with hx | hx
    · rcases inv.open_parent_popped x (hrest_mem x hx) with hp | ⟨p, hp, hpar⟩
      · exact Or.inl hp
      · exact Or.inr ⟨p, List.mem_append_left _ hp, hpar⟩
    · obtain ⟨ns, d, hmv, hns, hnode⟩ := hpush_node x hx
      refine Or.inr ⟨cur, List.mem_append_right _ (List.mem_singleton_self _), ?_⟩
      rw [hnode]
      rfl
  · -- chains_nodup
    rw [List.map_append, List.map_append]
    have hY : ((popped.map SNode.chain) ++ [cur.chain]).Nodup := by
      refine (List.nodup_append).mpr ⟨hrest_popped_nodup.of_append_right, ?_, ?_⟩
      · simp
      · intro a ha hb
        have : a = cur.chain := by simpa using hb
        rw [this] at ha
        exact hcur_notin_popped ha
    have hX : ((rest.map fun x => x.node.chain) ++ (pushes.map fun x => x.node.chain)).Nodup := by
      refine (List.nodup_append).mpr
        ⟨hrest_popped_nodup.of_append_left, hpush_chains_nodup, ?_⟩
      intro a ha hb
      obtain ⟨x, hx, hxa⟩ := List.mem_map.mp hb
      rw [← hxa] at ha
      exact hpush_fresh_rest x hx ha
    refine (List.nodup_append).mpr ⟨hX, hY, ?_⟩
    intro a ha hb
    rcases List.mem_append.mp ha with ha | ha
    · rcases List.mem_append.mp hb with hb | hb
      · exact (List.disjoint_of_nodup_append hrest_popped_nodup) ha hb
      · have : a = cur.chain := by simpa using hb
        rw [this] at ha
        exact hcur_notin_rest ha
    · obtain ⟨x, hx, hxa⟩ := List.mem_map.mp ha
      rcases List.mem_append.mp hb with hb | hb
      · rw [← hxa] at hb
        exact hpush_fresh_popped x hx hb
      · have : a = cur.chain := by simpa using hb
        rw [← hxa] at this
        exact hpush_ne_cur x hx this
  · -- popped_valid
    intro nd hnd
    rcases List.mem_append.mp hnd with hnd | hnd
    · exact inv.popped_valid nd hnd
    · have : nd = cur := by simpa using hnd
      rw [this]
      exact hcur_valid
  · -- popped_chain_nodup
    intro nd hnd
    rcases List.mem_append.mp hnd with hnd | hnd
    · exact inv.popped_chain_nodup nd hnd
    · have : nd = cur := by simpa using hnd
      rw [this]
      exact inv.open_chain_nodup e he_mem
  · -- popped_closed
    intro nd hnd
    rcases List.mem_append.mp hnd with hnd | hnd
    · exact hsub_closed _ (inv.popped_closed nd hnd)
    · have : nd = cur := by simpa using hnd
      rw [this]
      exact hcur_closed
  · -- closed_not_goal
    intro t ht
    rw [hclosed'] at ht
    split at ht
    · exact inv.closed_not_goal t ht
    · rcases List.mem_cons.mp ht with rfl | ht
      · exact hgoal
      · exact inv.closed_not_goal t ht
  · -- closed_nodup
    rw [hclosed']
    split
    · exact inv.closed_nodup
    · next hnotmem => exact List.nodup_cons.mpr ⟨hnotmem, inv.closed_nodup⟩
  · -- root_cov
    rcases inv.root_cov with hr | ⟨er, her, hst, hg⟩
    · exact Or.inl (hsub_closed _ hr)
    · rcases List.mem_cons.mp (hperm.mem_iff.mp her) with heq | hmem
      · left
        have : cur.state = root := by rw [← hst, heq]
        rw [← this]
        exact hcur_closed
      · exact Or.inr ⟨er, List.mem_append_left _ hmem, hst, hg⟩

/-! ## Optimality machinery -/

lemma key_witness {goal : State → Bool} {h : State → Nat} {root : State}
    {openL : List Entry} {counter : Nat} {closed : List State} {popped : List SNode}
    (hroot : root.WF) (hcons : State.HCons h)
    (inv : LoopInv goal h root openL counter closed popped)
    (hdij : DijInv root openL closed) :
    ∀ (m : Nat) (z : State), Reaches root z m → z ∉ closed →
      ∃ x ∈ openL, x.f ≤ m + h z := by
  intro m
  induction m with
  | zero =>
    intro z hz hznc
    obtain ⟨ds, hlen, happ⟩ := hz
    rw [List.length_eq_zero.mp hlen] at happ
    have hzr : z = root := (Option.some.inj happ).symm
    subst hzr
    rcases inv.root_cov with hr | ⟨er, her, hst, hg⟩
    · exact absurd hr hznc
    · refine ⟨er, her, ?_⟩
      rw [inv.open_f er her, hst, hg]
  | succ m ih =>
    intro z hz hznc
    obtain ⟨u, d, hu, hd⟩ := reaches_succ_elim hz
    have huwf : u.WF := reaches_WF hroot hu
    by_cases huc : u ∈ closed
    · rcases hdij u huc d z hd with hzc | ⟨x, hx, hst, hg⟩
      · exact absurd hzc hznc
      · refine ⟨x, hx, ?_⟩
        rw [inv.open_f x hx, hst]
        have := hg m hu
        omega
    · obtain ⟨x, hx, hf⟩ := ih u hu huc
      refine ⟨x, hx, ?_⟩
      have := hcons d huwf hd
      omega

lemma pop_optimal {goal : State → Bool} {h : State → Nat} {root : State}
    {openL : List Entry} {counter : Nat} {closed : List State} {popped : List SNode}
    {e : Entry} {rest : List Entry}
    (hroot : root.WF) (hcons : State.HCons h)
    (inv : LoopInv goal h root openL counter closed popped)
    (hdij : DijInv root openL closed)
    (hpop : popMin openL = some (e, rest))
    (hnc : e.node.state ∉ closed) :
    ∀ m, Reaches root e.node.state m → e.node.g ≤ m := by
  intro m hm
  obtain ⟨x, hx, hf⟩ := key_witness hroot hcons inv hdij m e.node.state hm hnc
  have hmin := popMin_min_f hpop x hx
  have hperm := popMin_perm hpop
  have he_mem : e ∈ openL := hperm.mem_iff.mpr (List.mem_cons_self _ _)
  have hef := inv.open_f e he_mem
  omega

lemma dij_preserved {goal : State → Bool} {h : State → Nat} {root : State}
    {openL : List Entry} {counter : Nat} {closed : List State} {popped : List SNode}
    {e : Entry} {rest : List Entry}
    (hroot : root.WF) (hcons : State.HCons h)
    (inv : LoopInv goal h root openL counter closed popped)
    (hdij : DijInv root openL closed)
    (hpop : popMin openL = some (e, rest))
    (hgoal : goal e.node.state = false) :
    DijInv root
      (rest ++ pushList h e.node
        (if e.node.state ∈ closed then closed else e.node.state :: closed)
        directionOrder counter)
      (if e.node.state ∈ closed then closed else e.node.state :: closed) := by
  set cur := e.node with hcur
  set closed' := if cur.state ∈ closed then closed else cur.state :: closed with hclosed'
  set pushes := pushList h cur closed' directionOrder counter with hpushes
  have hperm := popMin_perm hpop
  have hsub_closed : ∀ t ∈ closed, t ∈ closed' := by
    intro t ht
    rw [hclosed']
    split
    · exact ht
    · exact List.mem_cons_of_mem _ ht
  have hcur_closed : cur.state ∈ closed' := by
    rw [hclosed']
    split
    · assumption
    · exact List.mem_cons_self _ _
  have hold_witness : ∀ t ∈ closed, ∀ (d : SlidingDirection) (s' : State),
      t.make_move d = some s' → s' ∈ closed' ∨
        ∃ x ∈ rest ++ pushes, x.node.state = s' ∧
          ∀ m, Reaches root t m → x.node.g ≤ m + 1 := by
    intro t ht d s' hmv
    rcases hdij t ht d s' hmv with hsc | ⟨x, hx, hst, hg⟩
    · exact Or.inl (hsub_closed _ hsc)
    · rcases List.mem_cons.mp (hperm.mem_iff.mp hx) with heq | hmem
      · left
        have : s' = cur.state := by rw [← hst, heq]
        rw [this]
        exact hcur_closed
      · exact Or.inr ⟨x, List.mem_append_left _ hmem, hst, hg⟩
  intro t ht d s' hmv
  rw [hclosed'] at ht
  by_cases hc : cur.state ∈ closed
  · rw [if_pos hc] at ht
    exact hold_witness t ht d s' hmv
  · rw [if_neg hc] at ht
    rcases List.mem_cons.mp ht with rfl | ht
    · -- the freshly closed state: its pushed neighbours carry optimal g
      by_cases hs'c : s' ∈ closed'
      · exact Or.inl hs'c
      · obtain ⟨x, hx, hnode⟩ :=
          pushList_cover (mem_directionOrder d) hmv hs'c counter
        refine Or.inr ⟨x, List.mem_append_right _ hx, ?_, ?_⟩
        · rw [hnode]
          rfl
        · intro m hm
          have hopt := pop_optimal hroot hcons inv hdij hpop hc m hm
          have hxg : x.node.g = cur.g + 1 := by rw [hnode]; rfl
          have hceg : cur.g = e.node.g := rfl
          omega
    · exact hold_witness t ht d s' hmv

/-! ## Finiteness of the search space -/

lemma chunkListGo_congr {α : Type} (size : Nat) :
    ∀ (fuel fuel' : Nat) (l : List α), l.length ≤ fuel → l.length ≤ fuel' →
      chunkListGo size fuel l = chunkListGo size fuel' l := by
  intro fuel
  induction fuel with
  | zero =>
    intro fuel' l h h'
    have hl : l = [] := List.eq_nil_of_length_eq_zero (by omega)
    subst hl
    cases fuel' <;> rfl
  | succ fuel ih =>
    intro fuel' l h h'
    cases l with
    | nil => cases fuel' <;> rfl
    | cons a rest =>
      cases fuel' with
      | zero =>
        rw [List.length_cons] at h'
        omega
      | succ fuel' =>
        show (if size = 0 then _ else _) = (if size = 0 then _ else _)
        by_cases hs : size = 0
        · rw [if_pos hs, if_pos hs]
        · rw [if_neg hs, if_neg hs]
          congr 1
          apply ih <;>
            · rw [List.length_drop, List.length_cons]
              rw [List.length_cons] at h h'
              omega

lemma chunkList_cons {α : Type} {n : Nat} (hn : n ≠ 0) (a : α) (l : List α) :
    chunkList n (a :: l) = (a :: l).take n :: chunkList n ((a :: l).drop n) := by
  show chunkListGo n (a :: l).length (a :: l) = _
  rw [List.length_cons]
  show (if n = 0 then _ else _) = _
  rw [if_neg hn]
  congr 1
  apply chunkListGo_congr
  · rw [List.length_drop, List.length_cons]
    omega
  · exact Nat.le_refl _

lemma chunk_flatten {b : BoardRep} {n : Nat} (hn : 0 < n) (h : ∀ r ∈ b, r.length = n) :
    chunkList n b.flatten = b := by
  induction b with
  | nil => rfl
  | cons r t ih =>
    have hr : r.length = n := h r (List.mem_cons_self r t)
    rcases r with _ | ⟨a, r'⟩
    · simp at hr
      omega
    · show chunkList n ((a :: r') ++ t.flatten) = (a :: r') :: t
      rw [List.cons_append, chunkList_cons (by omega)]
      rw [← List.cons_append]
      rw [List.take_left' hr, List.drop_left' hr]
      rw [ih (fun x hx => h x (List.mem_cons_of_mem _ hx))]

/-- All well-formed states of a given size, as a list. -/
def allWFStates (n : Nat) : List State :=
  ((State.goalFlat n).permutations).map fun l => ⟨n, chunkList n l⟩

lemma mem_allWFStates {s : State} (h : s.WF) : s ∈ allWFStates s.size := by
  unfold allWFStates
  refine List.mem_map.mpr ⟨s.get_flat, List.mem_permutations.mpr h.perm, ?_⟩
  have hb : chunkList s.size s.get_flat = s.board :=
    chunk_flatten h.size_pos h.rect.2
  rw [hb]

/-- All duplicate-free lists over (the dedup of) a given list. -/
def nodupLists {α : Type} [DecidableEq α] (S : List α) : List (List α) :=
  (S.dedup.sublists.map List.permutations).flatten

lemma mem_nodupLists {α : Type} [DecidableEq α] {S c : List α} (hnd : c.Nodup)
    (hsub : ∀ x ∈ c, x ∈ S) : c ∈ nodupLists S := by
  unfold nodupLists
  have hfilter : (S.dedup.filter (· ∈ c)).Sublist S.dedup := List.filter_sublist _
  refine List.mem_flatten.mpr ⟨(S.dedup.filter (· ∈ c)).permutations,
    List.mem_map.mpr ⟨_, List.mem_sublists.mpr hfilter, rfl⟩, ?_⟩
  refine List.mem_permutations.mpr ?_
  refine List.perm_iff_count.mpr ?_
  intro a
  have hfnd : (S.dedup.filter (· ∈ c)).Nodup := (List.nodup_dedup S).filter _
  by_cases hac : a ∈ c
  · have h1 : c.count a = 1 := List.count_eq_one_of_mem hnd hac
    have h2 : a ∈ S.dedup.filter (· ∈ c) := by
      rw [List.mem_filter]
      exact ⟨List.mem_dedup.mpr (hsub a hac), by simpa using hac⟩
    rw [h1, List.count_eq_one_of_mem hfnd h2]
  · have h1 : c.count a = 0 := List.count_eq_zero.mpr hac
    have h2 : a ∉ S.dedup.filter (· ∈ c) := by
      rw [List.mem_filter]
      rintro ⟨_, hmem⟩
      exact hac (by simpa using hmem)
    rw [h1, List.count_eq_zero.mpr h2]

lemma nodup_length_le {α : Type} [DecidableEq α] {l F : List α} (h : l.Nodup)
    (hsub : ∀ x ∈ l, x ∈ F) : l.length ≤ F.length := by
  have h1 : l.toFinset.card = l.length := List.toFinset_card_of_nodup h
  have h2 : l.toFinset ⊆ F.toFinset := by
    intro x hx
    rw [List.mem_toFinset] at hx ⊢
    exact hsub x hx
  calc l.length = l.toFinset.card := h1.symm
    _ ≤ F.toFinset.card := Finset.card_le_card h2
    _ ≤ F.length := List.toFinset_card_le F

/-- The fuel bound: one more than the number of candidate parent chains. -/
def searchBound (root : State) : Nat :=
  (nodupLists (allWFStates root.size)).length

lemma popped_length_le {goal : State → Bool} {h : State → Nat} {root : State}
    {openL : List Entry} {counter : Nat} {closed : List State} {popped : List SNode}
    (hroot : root.WF)
    (inv : LoopInv goal h root openL counter closed popped) :
    popped.length ≤ searchBound root := by
  have hnodup : (popped.map SNode.chain).Nodup := inv.chains_nodup.of_append_right
  have hsub : ∀ c ∈ popped.map SNode.chain, c ∈ nodupLists (allWFStates root.size) := by
    intro c hc
    obtain ⟨nd, hnd, rfl⟩ := List.mem_map.mp hc
    refine mem_nodupLists (inv.popped_chain_nodup nd hnd) ?_
    intro t ht
    obtain ⟨m, hm⟩ := vn_chain_all (inv.popped_valid nd hnd) t ht
    have htwf : t.WF := reaches_WF hroot hm
    have htsz : t.size = root.size := reaches_size hm
    have := mem_allWFStates htwf
    rw [htsz] at this
    exact this
  have := nodup_length_le hnodup hsub
  rw [List.length_map] at this
  exact this

/-! ## Running the loop: validity, termination, optimality -/

lemma basic_preserved {h : State → Nat} {root : State}
    {openL : List Entry} {counter : Nat} {closed' : List State}
    {e : Entry} {rest : List Entry}
    (hvalid : ∀ x ∈ openL, ValidNode root x.node)
    (hpop : popMin openL = some (e, rest)) :
    ∀ x ∈ rest ++ pushList h e.node closed' directionOrder counter,
      ValidNode root x.node := by
  have hperm := popMin_perm hpop
  have he_mem : e ∈ openL := hperm.mem_iff.mpr (List.mem_cons_self _ _)
  intro x hx
  rcases List.mem_append.mp hx with hx | hx
  · exact hvalid x (hperm.mem_iff.mpr (List.mem_cons_of_mem _ hx))
  · obtain ⟨d, _, ns, hmv, hns, hnode, _, _⟩ := pushList_mem hx
    rw [hnode]
    exact ValidNode.step (hvalid e he_mem) hmv

lemma bool_eq_false {b : Bool} (h : ¬(b = true)) : b = false := by
  cases b
  · rfl
  · exact absurd rfl h

lemma loop_found_valid {goal : State → Bool} {h : State → Nat} {root : State} :
    ∀ (fuel : Nat) (openL : List Entry) (counter : Nat) (closed : List State)
      (expanded : Nat) (popped : List SNode),
      (∀ x ∈ openL, ValidNode root x.node) →
      ∀ {path : List State},
        (aStarLoop goal h fuel openL counter closed expanded popped).result
          = .found path →
        ∃ nd, ValidNode root nd ∧ goal nd.state = true ∧ path = reconstructPath nd := by
  intro fuel
  induction fuel with
  | zero =>
    intro openL counter closed expanded popped hvalid path hres
    rw [aStarLoop_zero] at hres
    exact SearchResult.noConfusion hres
  | succ fuel ih =>
    intro openL counter closed expanded popped hvalid path hres
    rcases hpop : popMin openL with _ | ⟨e, rest⟩
    · rw [aStarLoop_empty hpop] at hres
      exact SearchResult.noConfusion hres
    · by_cases hgoal : goal e.node.state = true
      · rw [aStarLoop_goal hpop hgoal] at hres
        have hperm := popMin_perm hpop
        have he_mem : e ∈ openL := hperm.mem_iff.mpr (List.mem_cons_self _ _)
        refine ⟨e.node, hvalid e he_mem, hgoal, ?_⟩
        exact (SearchResult.found.inj hres).symm
      · have hg := bool_eq_false hgoal
        rw [aStarLoop_step hpop hg] at hres
        exact ih _ _ _ _ _ (basic_preserved hvalid hpop) hres

lemma loop_no_outOfFuel {goal : State → Bool} {h : State → Nat} {root : State}
    (hroot : root.WF) :
    ∀ (fuel : Nat) (openL : List Entry) (counter : Nat) (closed : List State)
      (expanded : Nat) (popped : List SNode),
      LoopInv goal h root openL counter closed popped →
      searchBound root < fuel + popped.length →
      (aStarLoop goal h fuel openL counter closed expanded popped).result
        ≠ .outOfFuel := by
  intro fuel
  induction fuel with
  | zero =>
    intro openL counter closed expanded popped inv hbound
    have := popped_length_le hroot inv
    omega
  | succ fuel ih =>
    intro openL counter closed expanded popped inv hbound
    rcases hpop : popMin openL with _ | ⟨e, rest⟩
    · rw [aStarLoop_empty hpop]
      simp
    · by_cases hgoal : goal e.node.state = true
      · rw [aStarLoop_goal hpop hgoal]
        simp
      · have hg := bool_eq_false hgoal
        rw [aStarLoop_step hpop hg]
        refine ih _ _ _ _ _ (inv_preserved hroot inv hpop hg) ?_
        rw [List.length_append, List.length_cons, List.length_nil]
        omega

lemma loop_run_found {goal : State → Bool} {h : State → Nat} {root : State}
    (hroot : root.WF) (hcons : State.HCons h)
    {gz : State} (hgz : goal gz = true) {m₀ : Nat} (hreach : Reaches root gz m₀) :
    ∀ (fuel : Nat) (openL : List Entry) (counter : Nat) (closed : List State)
      (expanded : Nat) (popped : List SNode),
      LoopInv goal h root openL counter closed popped →
      DijInv root openL closed →
      searchBound root < fuel + popped.length →
      ∃ nd, (aStarLoop goal h fuel openL counter closed expanded popped).result
          = .found (reconstructPath nd) ∧
        ValidNode root nd ∧ goal nd.state = true ∧
        (∀ m, Reaches root nd.state m → nd.g ≤ m) := by
  intro fuel
  induction fuel with
  | zero =>
    intro openL counter closed expanded popped inv hdij hbound
    have := popped_length_le hroot inv
    omega
  | succ fuel ih =>
    intro openL counter closed expanded popped inv hdij hbound
    rcases hpop : popMin openL with _ | ⟨e, rest⟩
    · exfalso
      have hgznc : gz ∉ closed := by
        intro hmem
        have := inv.closed_not_goal gz hmem
        rw [hgz] at this
        exact Bool.noConfusion this
      obtain ⟨x, hx, _⟩ := key_witness hroot hcons inv hdij m₀ gz hreach hgznc
      rw [popMin_eq_none.mp hpop] at hx
      simp at hx
    · by_cases hgoal : goal e.node.state = true
      · rw [aStarLoop_goal hpop hgoal]
        have hperm := popMin_perm hpop
        have he_mem : e ∈ openL := hperm.mem_iff.mpr (List.mem_cons_self _ _)
        have hnc : e.node.state ∉ closed := by
          intro hmem
          have := inv.closed_not_goal _ hmem
          rw [hgoal] at this
          exact Bool.noConfusion this
        exact ⟨e.node, rfl, inv.open_valid e he_mem, hgoal,
          pop_optimal hroot hcons inv hdij hpop hnc⟩
      · have hg := bool_eq_false hgoal
        rw [aStarLoop_step hpop hg]
        refine ih _ _ _ _ _ (inv_preserved hroot inv hpop hg)
          (dij_preserved hroot hcons inv hdij hpop hg) ?_
        rw [List.length_append, List.length_cons, List.length_nil]
        omega

lemma loop_expanded_mono {goal : State → Bool} {h : State → Nat} :
    ∀ (fuel : Nat) (openL : List Entry) (counter : Nat) (closed : List State)
      (expanded : Nat) (popped : List SNode),
      expanded ≤ (aStarLoop goal h fuel openL counter closed expanded popped).expanded := by
  intro fuel
  induction fuel with
  | zero =>
    intro openL counter closed expanded popped
    rw [aStarLoop_zero]
  | succ fuel ih =>
    intro openL counter closed expanded popped
    rcases hpop : popMin openL with _ | ⟨e, rest⟩
    · rw [aStarLoop_empty hpop]
    · by_cases hgoal : goal e.node.state = true
      · rw [aStarLoop_goal hpop hgoal]
        show expanded ≤ expanded + 1
        omega
      · have hg := bool_eq_false hgoal
        rw [aStarLoop_step hpop hg]
        have := ih (rest ++ pushList h e.node
            (if e.node.state ∈ closed then closed else e.node.state :: closed)
            directionOrder counter)
          (counter + (pushList h e.node
            (if e.node.state ∈ closed then closed else e.node.state :: closed)
            directionOrder counter).length)
          (if e.node.state ∈ closed then closed else e.node.state :: closed)
          (expanded + 1) (popped ++ [e.node])
        omega

/-! ## The goal state and full-run consequences -/

lemma flatten_chunkList {α : Type} {n : Nat} (hn : 0 < n) :
    ∀ l : List α, (chunkList n l).flatten = l := by
  have key : ∀ (k : Nat) (l : List α), l.length ≤ k → (chunkList n l).flatten = l := by
    intro k
    induction k with
    | zero =>
      intro l hl
      have : l = [] := List.eq_nil_of_length_eq_zero (by omega)
      subst this
      rfl
    | succ k ih =>
      intro l hl
      cases l with
      | nil => rfl
      | cons a rest =>
        rw [chunkList_cons (by omega), List.flatten_cons]
        rw [ih ((a :: rest).drop n) ?_]
        · exact List.take_append_drop n (a :: rest)
        · rw [List.length_drop, List.length_cons]
          rw [List.length_cons] at hl
          omega
  exact fun l => key l.length l (Nat.le_refl _)

lemma goalState_size (n : Nat) : (goalState n).size = n := rfl

lemma goalState_get_flat {n : Nat} (hn : 0 < n) :
    (goalState n).get_flat = State.goalFlat n :=
  flatten_chunkList hn (State.goalFlat n)

lemma goalState_finished {n : Nat} (hn : 0 < n) :
    (goalState n).is_finished = true := by
  rw [State.is_finished_iff]
  exact goalState_get_flat hn

lemma finished_eq_goalState {t : State} (hWF : t.WF) (hfin : t.is_finished = true) :
    t = goalState t.size := by
  have hflat : t.get_flat = State.goalFlat t.size := (State.is_finished_iff t).mp hfin
  have hb : chunkList t.size t.get_flat = t.board :=
    chunk_flatten hWF.size_pos hWF.rect.2
  rcases t with ⟨n, b⟩
  show State.mk n b = State.mk n (chunkList n (State.goalFlat n))
  rw [← hflat, hb]

/-- Once the loop has finished within its fuel, extra fuel changes nothing. -/
lemma aStarLoop_fuel_mono {goal : State → Bool} {h : State → Nat} :
    ∀ (fuel fuel' : Nat) (openL : List Entry) (counter : Nat) (closed : List State)
      (expanded : Nat) (popped : List SNode),
      fuel ≤ fuel' →
      (aStarLoop goal h fuel openL counter closed expanded popped).result
        ≠ .outOfFuel →
      aStarLoop goal h fuel' openL counter closed expanded popped
        = aStarLoop goal h fuel openL counter closed expanded popped := by
  intro fuel
  induction fuel with
  | zero =>
    intro fuel' openL counter closed expanded popped hle hres
    rw [aStarLoop_zero] at hres
    exact absurd rfl hres
  | succ fuel ih =>
    intro fuel' openL counter closed expanded popped hle hres
    cases fuel' with
    | zero => omega
    | succ fuel' =>
      rcases hpop : popMin openL with _ | ⟨e, rest⟩
      · rw [aStarLoop_empty hpop, aStarLoop_empty hpop]
      · by_cases hgoal : goal e.node.state = true
        · rw [aStarLoop_goal hpop hgoal, aStarLoop_goal hpop hgoal]
        · have hg := bool_eq_false hgoal
          rw [aStarLoop_step hpop hg] at hres ⊢
          rw [aStarLoop_step hpop hg]
          exact ih fuel' _ _ _ _ _ (by omega) hres

/-- The closed set is built by insert-if-absent from the empty set, so it
never holds a state twice. -/
lemma loop_closed_nodup {goal : State → Bool} {h : State → Nat} :
    ∀ (fuel : Nat) (openL : List Entry) (counter : Nat) (closed : List State)
      (expanded : Nat) (popped : List SNode),
      closed.Nodup →
      (aStarLoop goal h fuel openL counter closed expanded popped).closed.Nodup := by
  intro fuel
  induction fuel with
  | zero =>
    intro openL counter closed expanded popped hnd
    rw [aStarLoop_zero]
    exact hnd
  | succ fuel ih =>
    intro openL counter closed expanded popped hnd
    rcases hpop : popMin openL with _ | ⟨e, rest⟩
    · rw [aStarLoop_empty hpop]
      exact hnd
    · by_cases hgoal : goal e.node.state = true
      · rw [aStarLoop_goal hpop hgoal]
        exact hnd
      · have hg := bool_eq_false hgoal
        rw [aStarLoop_step hpop hg]
        apply ih
        by_cases hmem : e.node.state ∈ closed
        · rw [if_pos hmem]
          exact hnd
        · rw [if_neg hmem]
          exact List.nodup_cons.mpr ⟨hmem, hnd⟩

/-- `randomize` only ever returns a board that passed `is_solvable()`. -/
lemma randomizeFrom_all_solvable (size : Nat) (shuffles : Nat → List Cell) :
    ∀ (fuel k : Nat),
      (randomizeFrom size shuffles fuel k).all State.is_solvable = true := by
  intro fuel
  induction fuel with
  | zero => intro k; rfl
  | succ fuel ih =>
    intro k
    show (if (State.mk size (chunkList size (shuffles k))).is_solvable then _
      else randomizeFrom size shuffles fuel (k + 1)).all State.is_solvable = true
    by_cases hs : (State.mk size (chunkList size (shuffles k))).is_solvable
    · rw [if_pos hs]
      simpa using hs
    · rw [if_neg hs]
      exact ih (k + 1)

/-! ## Specification-side goal list and inversion-pair count -/

/-- The goal ordering as the spec words it: the empty cell first, then the
tile values `1, 2, ..., size*size - 1` in ascending order. -/
def specGoalFlat (n : Nat) : List Cell :=
  none :: ((List.range (n * n)).drop 1).map some

lemma range_drop_one (m : Nat) : (List.range m).drop 1 = List.range' 1 (m - 1) := by
  cases m with
  | zero => rfl
  | succ k =>
    rw [List.range_succ_eq_map, List.drop_one, List.tail_cons]
    rw [List.range'_eq_map_range]
    apply List.map_congr_left
    intro a _
    omega

lemma goalFlat_eq_specGoalFlat (n : Nat) : State.goalFlat n = specGoalFlat n := by
  unfold State.goalFlat specGoalFlat
  rw [range_drop_one]

/-- The number of inversions as the spec words it: pairs of positions
`i < j` whose values are in the wrong order (`l[i] > l[j]`). -/
def inversionPairs (l : List Nat) : Nat :=
  ((List.range l.length).map fun i =>
    (List.range l.length).countP fun j =>
      decide (i < j ∧ l.getD j 0 < l.getD i 0)).sum

lemma map_getD_range {α : Type} (l : List α) (d : α) :
    (List.range l.length).map (fun i => l.getD i d) = l := by
  induction l with
  | nil => rfl
  | cons a t ih =>
    rw [List.length_cons, List.range_succ_eq_map, List.map_cons, List.map_map]
    have h2 : List.map ((fun i => (a :: t).getD i d) ∘ Nat.succ) (List.range t.length)
        = t := by
      conv_rhs => rw [← ih]
      apply List.map_congr_left
      intro i _
      rfl
    rw [h2]
    rfl

lemma countP_getD_range (l : List Nat) (p : Nat → Bool) :
    (List.range l.length).countP (fun i => p (l.getD i 0)) = l.countP p := by
  conv_rhs => rw [← map_getD_range l 0]
  rw [List.countP_map]
  rfl

lemma inversionPairs_eq_inversions (l : List Nat) : inversionPairs l = inversions l := by
  induction l with
  | nil => rfl
  | cons a t ih =>
    have hhead : (0 :: List.map Nat.succ (List.range t.length)).countP
        (fun j => decide (0 < j ∧ (a :: t).getD j 0 < (a :: t).getD 0 0))
        = t.countP (fun b => decide (b < a)) := by
      rw [List.countP_cons, List.countP_map]
      have hcong : ∀ k ∈ List.range t.length,
          ((fun j => decide (0 < j ∧ (a :: t).getD j 0 < (a :: t).getD 0 0)) ∘ Nat.succ) k
              = true
          ↔ (fun i => (fun b => decide (b < a)) (t.getD i 0)) k = true := by
        intro k _
        show decide (0 < k + 1 ∧ t.getD k 0 < a) = true ↔ decide (t.getD k 0 < a) = true
        rw [decide_eq_true_iff, decide_eq_true_iff]
        constructor
        · rintro ⟨_, hk⟩
          exact hk
        · intro hk
          exact ⟨Nat.succ_pos k, hk⟩
      rw [List.countP_congr hcong, countP_getD_range t (fun b => decide (b < a))]
      simp
    have htail : List.map ((fun i =>
        (0 :: List.map Nat.succ (List.range t.length)).countP fun j =>
          decide (i < j ∧ (a :: t).getD j 0 < (a :: t).getD i 0)) ∘ Nat.succ)
        (List.range t.length)
        = List.map (fun i =>
            (List.range t.length).countP fun j =>
              decide (i < j ∧ t.getD j 0 < t.getD i 0)) (List.range t.length) := by
      apply List.map_congr_left
      intro k _
      show (0 :: List.map Nat.succ (List.range t.length)).countP
          (fun j => decide (k + 1 < j ∧ (a :: t).getD j 0 < t.getD k 0)) = _
      rw [List.countP_cons, List.countP_map]
      have hcong : ∀ m ∈ List.range t.length,
          ((fun j => decide (k + 1 < j ∧ (a :: t).getD j 0 < t.getD k 0)) ∘ Nat.succ) m
              = true
          ↔ (fun j => decide (k < j ∧ t.getD j 0 < t.getD k 0)) m = true := by
        intro m _
        show decide (k + 1 < m + 1 ∧ t.getD m 0 < t.getD k 0) = true
          ↔ decide (k < m ∧ t.getD m 0 < t.getD k 0) = true
        rw [decide_eq_true_iff, decide_eq_true_iff]
        constructor
        · rintro ⟨hkm, hlt⟩
          exact ⟨by omega, hlt⟩
        · rintro ⟨hkm, hlt⟩
          exact ⟨by omega, hlt⟩
      rw [List.countP_congr hcong]
      simp
    unfold inversionPairs
    rw [List.length_cons, List.range_succ_eq_map, List.map_cons, List.sum_cons,
      List.map_map]
    rw [hhead, htail]
    show t.countP (fun b => decide (b < a)) + inversionPairs t = inversions (a :: t)
    rw [ih]
    rfl

/-! ## Concrete boards used to instantiate and to refute claims -/

/-- A 2×2 board that `is_solvable` accepts but from which the goal is
unreachable: the search exhausts its frontier without finding the goal. -/
def a2 : State := ⟨2, [[some 1, some 2], [none, some 3]]⟩

/-- The 2×2 goal board itself; `is_solvable` rejects it. -/
def g2 : State := ⟨2, [[none, some 1], [some 2, some 3]]⟩

/-- A 2×2 board one move away from the goal. -/
def r2 : State := ⟨2, [[some 1, none], [some 2, some 3]]⟩

/-- The 3×3 goal board. -/
def g3 : State := ⟨3, [[none, some 1, some 2], [some 3, some 4, some 5],
  [some 6, some 7, some 8]]⟩

/-- The 3×3 goal board after sliding tile 1 left into the empty cell. -/
def t3 : State := ⟨3, [[some 1, none, some 2], [some 3, some 4, some 5],
  [some 6, some 7, some 8]]⟩

/-- A 3×3 board with one inversion, hence unsolvable under either parity
formula. -/
def b3 : State := ⟨3, [[some 2, some 1, some 3], [some 4, some 5, some 6],
  [some 7, some 8, none]]⟩

/-- The trivial 1×1 board. -/
def s1 : State := ⟨1, [[none]]⟩

/-- Extracting the loop result from the pair returned by `solve_by_heuristic`. -/
lemma solve_by_heuristic_found {h : State → Nat} {root : State} {fuel : Nat}
    {path : List State}
    (hpath : (solve_by_heuristic h root fuel).1 = some path) :
    (solveByHeuristic h root fuel).result = .found path := by
  unfold solve_by_heuristic at hpath
  dsimp only at hpath
  rcases hr : (solveByHeuristic h root fuel).result with p | _ | _ <;>
    rw [hr] at hpath
  · rw [Option.some.inj hpath]
  · exact Option.noConfusion hpath
  · exact Option.noConfusion hpath

/-! ## The claims -/

/-- C2: whenever `solve_by_heuristic` returns a non-null path, the path
starts at the root state, ends at a state satisfying `is_finished`, and
every consecutive pair of states differs by exactly one legal `make_move`
application. -/
theorem solve_by_heuristic_path_valid (h : State → Nat) (root : State)
    (fuel : Nat) (path : List State)
    (hpath : (solve_by_heuristic h root fuel).1 = some path) :
    path.head? = some root ∧
    (∃ t, path.getLast? = some t ∧ t.is_finished = true) ∧
    List.Chain' StepRel path := by
  have hres : (aStarLoop State.is_finished h fuel
      [⟨h root, 0, .mk root none 0⟩] 1 [] 0 []).result = .found path :=
    solve_by_heuristic_found hpath
  have hvalid0 : ∀ x ∈ [(⟨h root, 0, .mk root none 0⟩ : Entry)],
      ValidNode root x.node := by
    intro x hx
    rw [List.mem_singleton.mp hx]
    exact ValidNode.root
  obtain ⟨nd, hvalid, hgoal, rfl⟩ :=
    loop_found_valid fuel _ 1 [] 0 [] hvalid0 hres
  refine ⟨?_, ⟨nd.state, ?_, hgoal⟩, ?_⟩
  · show (nd.chain.reverse).head? = some root
    rw [List.head?_reverse]
    exact vn_chain_last hvalid
  · show (nd.chain.reverse).getLast? = some nd.state
    rw [List.getLast?_reverse]
    exact SNode.chain_head nd
  · show List.Chain' StepRel nd.chain.reverse
    exact List.chain'_reverse.mpr (vn_chain_chain' hvalid)

theorem solve_by_heuristic_path_valid_witness :
    (solve_by_heuristic State.hamming_cost g2 1).1 = some [g2] ∧
    ([g2].head? = some g2 ∧
      (∃ t, [g2].getLast? = some t ∧ t.is_finished = true) ∧
      List.Chain' StepRel [g2]) :=
  ⟨by decide, solve_by_heuristic_path_valid State.hamming_cost g2 1 [g2] (by decide)⟩

/-- C1: for a well-formed root from which the goal state is reachable
(the corrected premise — the original premise `is_solvable = true` does not
suffice, see the counterexample) and either built-in heuristic, the solver
returns, given enough fuel, a path whose length minus one equals the minimum
number of legal moves from the root to the goal state. -/
theorem solve_by_heuristic_optimal_of_reachable (h : State → Nat)
    (hh : h = State.hamming_cost ∨ h = State.manhattan_cost)
    (root : State) (hroot : root.WF)
    (m₀ : Nat) (hreach : Reaches root (goalState root.size) m₀) :
    ∃ bound : Nat, ∀ fuel, bound ≤ fuel →
      ∃ path, (solve_by_heuristic h root fuel).1 = some path ∧
        Reaches root (goalState root.size) (path.length - 1) ∧
        ∀ m, Reaches root (goalState root.size) m → path.length - 1 ≤ m := by
  have hcons : State.HCons h := by
    rcases hh with rfl | rfl
    · exact State.hamming_hcons
    · exact State.manhattan_hcons
  have hgz : State.is_finished (goalState root.size) = true :=
    goalState_finished hroot.size_pos
  refine ⟨searchBound root + 1, fun fuel hfuel => ?_⟩
  obtain ⟨nd, hres, hvalid, hgoal, hopt⟩ :=
    loop_run_found hroot hcons hgz hreach fuel
      [⟨h root, 0, .mk root none 0⟩] 1 [] 0 []
      (loopInv_init State.is_finished h root)
      (dijInv_init root _)
      (by rw [List.length_nil]; omega)
  have hsz : nd.state.size = root.size := reaches_size (vn_reaches hvalid)
  have heq : nd.state = goalState root.size := by
    rw [← hsz]
    exact finished_eq_goalState (vn_wf hroot hvalid) hgoal
  have hlen : (reconstructPath nd).length = nd.g + 1 := by
    unfold reconstructPath
    rw [List.length_reverse]
    exact vn_chain_length hvalid
  refine ⟨reconstructPath nd, ?_, ?_, ?_⟩
  · unfold solve_by_heuristic solveByHeuristic
    dsimp only
    rw [hres]
  · rw [hlen]
    show Reaches root (goalState root.size) nd.g
    rw [← heq]
    exact vn_reaches hvalid
  · intro m hm
    rw [hlen]
    have := hopt m (by rw [heq]; exact hm)
    omega

theorem solve_by_heuristic_optimal_of_reachable_witness :
    r2.WF ∧ Reaches r2 (goalState 2) 1 ∧
    (∃ bound : Nat, ∀ fuel, bound ≤ fuel →
      ∃ path, (solve_by_heuristic State.hamming_cost r2 fuel).1 = some path ∧
        Reaches r2 (goalState 2) (path.length - 1) ∧
        ∀ m, Reaches r2 (goalState 2) m → path.length - 1 ≤ m) :=
  ⟨by decide, ⟨[.RIGHT], rfl, by decide⟩,
    solve_by_heuristic_optimal_of_reachable State.hamming_cost (Or.inl rfl) r2
      (by decide) 1 ⟨[.RIGHT], rfl, by decide⟩⟩

/-- The board `a2` satisfies `is_solvable`, yet the search exhausts its
frontier and `solve_by_heuristic` returns `None` for every sufficient fuel:
the original premise of C1 ("solvable" in the sense of the code's
`is_solvable` check) does not guarantee a returned path. -/
theorem solvable_premise_counterexample :
    a2.is_solvable = true ∧ a2.WF ∧
    ∀ fuel, 14 ≤ fuel →
      (solve_by_heuristic State.hamming_cost a2 fuel).1 = none := by
  refine ⟨by decide, by decide, ?_⟩
  intro fuel hf
  have h14 : (aStarLoop State.is_finished State.hamming_cost 14
      [⟨State.hamming_cost a2, 0, .mk a2 none 0⟩] 1 [] 0 []).result
      = .exhausted := by decide
  have hmono := aStarLoop_fuel_mono 14 fuel
    [⟨State.hamming_cost a2, 0, .mk a2 none 0⟩] 1 [] 0 [] hf
    (by rw [h14]; exact fun contra => SearchResult.noConfusion contra)
  unfold solve_by_heuristic solveByHeuristic
  dsimp only
  rw [hmono, h14]

/-- C9: for every well-formed root and any heuristic, the search loop
terminates after finitely many iterations: beyond a finite fuel bound the
run has completed, returning either a reconstructed path or the exhausted
(no-solution) outcome. -/
theorem solve_by_heuristic_terminates (h : State → Nat) (root : State)
    (hroot : root.WF) :
    ∃ bound : Nat, ∀ fuel, bound ≤ fuel →
      (∃ path, (solveByHeuristic h root fuel).result = .found path) ∨
      (solveByHeuristic h root fuel).result = .exhausted := by
  refine ⟨searchBound root + 1, fun fuel hfuel => ?_⟩
  have hno := @loop_no_outOfFuel State.is_finished h root hroot fuel
    [⟨h root, 0, .mk root none 0⟩] 1 [] 0 []
    (loopInv_init State.is_finished h root)
    (by rw [List.length_nil]; omega)
  rcases hr : (solveByHeuristic h root fuel).result with p | _ | _
  · exact Or.inl ⟨p, rfl⟩
  · exact Or.inr rfl
  · unfold solveByHeuristic at hr
    exact absurd hr hno

theorem solve_by_heuristic_terminates_witness :
    s1.WF ∧
    (∃ bound : Nat, ∀ fuel, bound ≤ fuel →
      (∃ path, (solveByHeuristic State.hamming_cost s1 fuel).result = .found path) ∨
      (solveByHeuristic State.hamming_cost s1 fuel).result = .exhausted) :=
  ⟨by decide, solve_by_heuristic_terminates State.hamming_cost s1 (by decide)⟩

/-- C3: `is_finished` holds exactly when the row-major flattening of the
board is the empty cell followed by the tile values in ascending order. -/
theorem is_finished_iff_specGoal (s : State) :
    s.is_finished = true ↔ s.get_flat = specGoalFlat s.size := by
  rw [State.is_finished_iff, goalFlat_eq_specGoalFlat]

/-- C4: `is_solvable` implements exactly the parity formula of the claim —
inversion-pair count even for odd sizes, inversion-pair count plus the empty
cell's row from the bottom even for even sizes. -/
theorem is_solvable_parity_formula (s : State) (hWF : s.WF) (ex ey : Nat)
    (hex : ex < s.size) (hey : ey < s.size) (hcell : s.cell ex ey = none) :
    s.is_solvable = true ↔
      (if s.size % 2 = 1 then inversionPairs s.flatValues % 2 = 0
       else (inversionPairs s.flatValues + (s.size - 1 - ey)) % 2 = 0) := by
  have hfe := hWF.find_empty_eq hex hey hcell
  unfold State.is_solvable
  rw [inversionPairs_eq_inversions]
  by_cases hodd : s.size % 2 = 1
  · rw [if_pos hodd, if_pos hodd]
    exact decide_eq_true_iff
  · rw [if_neg hodd, if_neg hodd, hfe]
    exact decide_eq_true_iff

theorem is_solvable_parity_formula_witness :
    a2.WF ∧ 0 < a2.size ∧ 1 < a2.size ∧ a2.cell 0 1 = none ∧
    (a2.is_solvable = true ↔
      (if a2.size % 2 = 1 then inversionPairs a2.flatValues % 2 = 0
       else (inversionPairs a2.flatValues + (a2.size - 1 - 1)) % 2 = 0)) :=
  ⟨by decide, by decide, by decide, by decide,
    is_solvable_parity_formula a2 (by decide) 0 1 (by decide) (by decide) (by decide)⟩

/-- C5 (corrected, legacy solver): `TreeNode.solve_hamming` checks
`is_solvable` first and fails fast, returning `None` without entering the
search loop, whenever the root is unsolvable by the parity check.  The
canonical `tree_node.solve_by_heuristic` has no such check — see the
counterexample. -/
theorem solve_hamming_fail_fast (root : State) (fuel : Nat)
    (hns : StateL.is_solvableL root = false) :
    solve_hamming root fuel = none := by
  simp [solve_hamming, hns]

theorem solve_hamming_fail_fast_witness :
    StateL.is_solvableL b3 = false ∧ solve_hamming b3 5 = none :=
  ⟨by decide, solve_hamming_fail_fast b3 5 (by decide)⟩

/-- The canonical solver performs no solvability check: on the 2×2 goal
board, which the parity formula rejects, it still enters the loop, expands a
node, and even returns a path rather than a distinct no-solution result. -/
theorem no_fail_fast_counterexample :
    g2.is_solvable = false ∧
    (solve_by_heuristic State.hamming_cost g2 1).2 = 1 ∧
    (solve_by_heuristic State.hamming_cost g2 1).1 = some [g2] := by
  decide

/-- C6 (corrected): what the closed set does guarantee is that no state is
ever *recorded* twice: the final closed set of every run is duplicate-free.
Re-expansion of a popped state is nevertheless possible — see the
counterexample. -/
theorem final_closed_set_nodup (h : State → Nat) (root : State) (fuel : Nat) :
    (solveByHeuristic h root fuel).closed.Nodup := by
  unfold solveByHeuristic
  exact loop_closed_nodup fuel _ 1 [] 0 [] List.nodup_nil

/-- A run of the Hamming-heuristic search on `a2` pops the same state twice:
duplicate open-list entries pushed before the state was closed are not
filtered at pop time, so the popped sequence holds a repeated state. -/
theorem reexpansion_counterexample :
    ¬ ((solveByHeuristic State.hamming_cost a2 20).popped.map SNode.state).Nodup := by
  decide

/-- C7: for every well-formed state, the Manhattan heuristic dominates the
Hamming heuristic, and each equals zero exactly on finished states. -/
theorem heuristic_dominance_zero_iff (s : State) (hWF : s.WF) :
    s.hamming_cost ≤ s.manhattan_cost ∧
    (s.hamming_cost = 0 ↔ s.is_finished = true) ∧
    (s.manhattan_cost = 0 ↔ s.is_finished = true) :=
  ⟨hWF.hamming_le_manhattan, hWF.hamming_eq_zero_iff, hWF.manhattan_eq_zero_iff⟩

theorem heuristic_dominance_zero_iff_witness :
    a2.WF ∧
    (a2.hamming_cost ≤ a2.manhattan_cost ∧
      (a2.hamming_cost = 0 ↔ a2.is_finished = true) ∧
      (a2.manhattan_cost = 0 ↔ a2.is_finished = true)) :=
  ⟨by decide, heuristic_dominance_zero_iff a2 (by decide)⟩

/-- C8: solvability is invariant under legal moves — for a well-formed
solvable state, every state reached by any sequence of `make_move`
applications (in particular by a single one) is still solvable. -/
theorem is_solvable_move_invariant (s t : State) (m : Nat) (hWF : s.WF)
    (hs : s.is_solvable = true) (hreach : Reaches s t m) :
    t.is_solvable = true := by
  rw [reaches_solvable hWF hreach]
  exact hs

theorem is_solvable_move_invariant_witness :
    g3.WF ∧ g3.is_solvable = true ∧ Reaches g3 t3 1 ∧ t3.is_solvable = true :=
  ⟨by decide, by decide, ⟨[.LEFT], rfl, by decide⟩,
    is_solvable_move_invariant g3 t3 1 (by decide) (by decide)
      ⟨[.LEFT], rfl, by decide⟩⟩

/-- C10: a falsy `board` argument (the empty list) is ignored: construction
proceeds exactly as with no board argument, generating boards by rejection
sampling, and any state it produces satisfies `is_solvable`. -/
theorem falsy_board_randomizes (size : Nat) (shuffles : Nat → List Cell)
    (fuel : Nat) :
    stateInit size (some []) shuffles fuel = stateInit size none shuffles fuel ∧
    (stateInit size (some []) shuffles fuel).all State.is_solvable = true := by
  constructor
  · rfl
  · show (randomizeFrom size shuffles fuel 0).all State.is_solvable = true
    exact randomizeFrom_all_solvable size shuffles fuel 0
